import Mathlib

/-!
Verification of the plaidsh shell core (tokenizer, parser, pipeline AST,
executor skeleton) against its natural-language specification.

The development shallowly embeds the C sources:
  * `tokenize.c` (`TOK_tokenize_input`, `isescape`) as a structural scan
    over `List Char`;
  * `parse.c` (`Parse`) as a step function over the token stream, with the
    external `glob` pattern-expansion service abstracted as a parameter;
  * `pipeline.c` (`AST_append`, `AST_pipeline2str`, `AST_execute`) over an
    inductive AST, with buffer writes modelled as an explicit buffer object
    that records any out-of-bounds access, and OS `wait` results supplied
    as an oracle.
-/

namespace Plaidsh

/-- Shorthand: the character list of a string literal. -/
def strL (s : String) : List Char := s.data

/-! ## Tokens (token.h) -/

/-- A token as produced by the tokenizer.  `TOK_END` is not materialized in
the stream (it is only a sentinel returned by `TOK_next_type` on an empty
stream), so it has no constructor here. -/
inductive Token where
  | word (value : List Char)
  | quotedWord (value : List Char)
  | lessThan
  | greaterThan
  | pipe
deriving DecidableEq, Repr

/-- Lexical errors reported by `TOK_tokenize_input`.  `illegalEscape c`
carries the offending character (the C code reads the NUL terminator, i.e.
`'\x00'`, when a backslash ends the input). -/
inductive LexError where
  | illegalEscape (c : Char)
  | unterminatedQuote
deriving DecidableEq, Repr

/-! ## Tokenizer (tokenize.c) -/

/-- `isescape` from tokenize.c: the set of characters that may follow a
backslash. -/
def isescape (c : Char) : Bool :=
  c = 'n' || c = 'r' || c = 't' || c = ' ' ||
  c = '"' || c = '>' || c = '<' || c = '|' ||
  c = '\\'

/-- `isspace` in the C locale, as used by the tokenizer. -/
def isspaceC (c : Char) : Bool :=
  c = ' ' || c = '\t' || c = '\n' || c = '\x0b' || c = '\x0c' || c = '\r'

/-- Flush the pending unquoted word (the `start` pointer of the C scan):
emit a `Word` token for the accumulated characters, if any. -/
def flushTok : Option (List Char) → List Token
  | none => []
  | some w => [Token.word w]

/-- Scanner mode: `norm pending` is the main loop (`pending = some w`
models a set `start` pointer with `w` the characters scanned so far for the
current unquoted word); `quote acc` is the inner quoted-region loop with
`acc` the token text scanned so far, starting with the opening quote. -/
inductive TokMode where
  | norm (pending : Option (List Char))
  | quote (acc : List Char)
deriving DecidableEq, Repr

/-- Error propagation for the scan: prefix the tokens of a successful
remainder, pass an error through unchanged. -/
def prependTok (pre : List Token) :
    Except LexError (List Token) → Except LexError (List Token)
  | .error e => .error e
  | .ok ts => .ok (pre ++ ts)

/-- The operator token emitted for `<`, `>` and `|` (whitespace emits no
token). -/
def opTok (c : Char) : List Token :=
  if c = '<' then [.lessThan]
  else if c = '>' then [.greaterThan]
  else if c = '|' then [.pipe]
  else []

/-- The scan loop of `TOK_tokenize_input`, one character per step.
In quoted mode the scan consumes characters until an unescaped `"`; a
backslash only checks the following character without consuming it,
exactly like the C inner loop, so an escaped `"` still closes the quote.
(A backslash can head the escape patterns because it is neither `"`, an
operator, nor whitespace, so in the C if-chain it always falls to the
escape-handling branch.) -/
def tokRun : List Char → TokMode → Except LexError (List Token)
  | [], .norm pending => .ok (flushTok pending)
  | [], .quote _ => .error .unterminatedQuote
  | '"' :: rest, .norm pending =>
      -- an unescaped double quote ends the pending word and opens a
      -- quoted word; the emitted text includes both quote characters
      prependTok (flushTok pending) (tokRun rest (.quote ['"']))
  | '\\' :: [], .norm _ =>
      -- the C scan reads the NUL terminator as the escaped character
      .error (.illegalEscape '\x00')
  | '\\' :: c2 :: rest2, .norm pending =>
      -- escape sequence: the character after the backslash must be legal;
      -- both characters are kept verbatim in the word text
      if isescape c2 then tokRun rest2 (.norm (some (pending.getD [] ++ ['\\', c2])))
      else .error (.illegalEscape c2)
  | c :: rest, .norm pending =>
      if c = '<' || c = '>' || c = '|' || isspaceC c then
        -- operator or whitespace terminates the pending word
        prependTok (flushTok pending ++ opTok c) (tokRun rest (.norm none))
      else
        tokRun rest (.norm (some (pending.getD [] ++ [c])))
  | '"' :: rest, .quote acc =>
      prependTok [Token.quotedWord (acc ++ ['"'])] (tokRun rest (.norm none))
  | '\\' :: [], .quote _ => .error (.illegalEscape '\x00')
  | '\\' :: c2 :: rest2, .quote acc =>
      if isescape c2 then tokRun (c2 :: rest2) (.quote (acc ++ ['\\']))
      else .error (.illegalEscape c2)
  | c :: rest, .quote acc => tokRun rest (.quote (acc ++ [c]))

/-- The main-loop entry of the scan (normal mode). -/
def tokAux (l : List Char) (pending : Option (List Char)) :
    Except LexError (List Token) :=
  tokRun l (.norm pending)

/-- The quoted-region entry of the scan. -/
def tokQuote (l : List Char) (acc : List Char) :
    Except LexError (List Token) :=
  tokRun l (.quote acc)

/-- `TOK_tokenize_input` from tokenize.c: tokenize one input line. -/
def TOK_tokenize_input (input : List Char) : Except LexError (List Token) :=
  tokAux input none

/-! ## Pipeline AST (pipeline.h / pipeline.c)

A C `AST` is a pointer to a `_ast_node` (or `NULL`).  We embed it as an
inductive type with a `nil` constructor for the null pointer; each node
carries its `right` chain inline, and `pipe` also carries its `left`
subtree, mirroring `struct _ast_node`. -/

inductive ASTN where
  | nil
  | word (value : List Char) (right : ASTN)
  | quotedWord (value : List Char) (right : ASTN)
  | lessThan (right : ASTN)
  | greaterThan (right : ASTN)
  | pipe (left : ASTN) (right : ASTN)
deriving DecidableEq, Repr

/-- `ASTNodeType` from pipeline.h. -/
inductive ASTNodeType where
  | WORD
  | QUOTED_WORD
  | OP_LESSTHAN
  | OP_GREATERTHAN
  | OP_PIPE
deriving DecidableEq, Repr

/-- `AST_type`: the type of the head node (`none` for the null pipeline,
where the C function's `assert(pipeline)` would fire). -/
def AST_type : ASTN → Option ASTNodeType
  | .nil => none
  | .word _ _ => some .WORD
  | .quotedWord _ _ => some .QUOTED_WORD
  | .lessThan _ => some .OP_LESSTHAN
  | .greaterThan _ => some .OP_GREATERTHAN
  | .pipe _ _ => some .OP_PIPE

/-- `AST_append` from pipeline.c: append `right` at the end of the
pipeline's `right` chain (walking `->right` links only, never descending
into a `pipe`'s `left` subtree); appending `NULL` is a no-op and appending
to `NULL` yields `right` itself. -/
def AST_append : ASTN → ASTN → ASTN
  | p, .nil => p
  | .nil, n => n
  | .word v r, n => .word v (AST_append r n)
  | .quotedWord v r, n => .quotedWord v (AST_append r n)
  | .lessThan r, n => .lessThan (AST_append r n)
  | .greaterThan r, n => .greaterThan (AST_append r n)
  | .pipe l r, n => .pipe l (AST_append r n)

/-- `AST_countpipes` from pipeline.c: length of the `pipe` spine. -/
def AST_countpipes : ASTN → Nat
  | .pipe l _ => 1 + AST_countpipes l
  | _ => 0

/-- Number of input-redirect (`OP_LESSTHAN`) nodes anywhere in the tree. -/
def countLess : ASTN → Nat
  | .nil => 0
  | .word _ r => countLess r
  | .quotedWord _ r => countLess r
  | .lessThan r => 1 + countLess r
  | .greaterThan r => countLess r
  | .pipe l r => countLess l + countLess r

/-- Number of output-redirect (`OP_GREATERTHAN`) nodes anywhere in the tree. -/
def countGreater : ASTN → Nat
  | .nil => 0
  | .word _ r => countGreater r
  | .quotedWord _ r => countGreater r
  | .lessThan r => countGreater r
  | .greaterThan r => 1 + countGreater r
  | .pipe l r => countGreater l + countGreater r

/-! ## Parser (parse.c)

The external pattern-matching service (`glob` with
`GLOB_TILDE_CHECK | GLOB_NOCHECK`) is abstracted as a function from a word
to either a failure signal or the ordered list of expansion results. -/

/-- The pattern-expansion service consumed by the parser. -/
def Expand : Type := List Char → Except Unit (List (List Char))

/-- Literal expansion: every word expands to itself, which is what `glob`
with `GLOB_NOCHECK` produces for any pattern with no metacharacters and no
match directory access error. -/
def globLiteral : Expand := fun v => .ok [v]

/-- `glob_append` from parse.c: append one `WORD` node per expansion
result, in order, to the pipeline. -/
def glob_append (pipeline : ASTN) (paths : List (List Char)) : ASTN :=
  paths.foldl (fun a p => AST_append a (.word p .nil)) pipeline

/-- The parser's loop state: the redirect counters and the accumulated
pipeline (`ret`). -/
structure PState where
  rin : Nat
  rout : Nat
  ret : ASTN
deriving DecidableEq, Repr

/-- The initial parser state. -/
def initPState : PState := ⟨0, 0, .nil⟩

/-- Is the head of `ret` a redirect node?  This is the condition
`AST_type(ret) == OP_LESSTHAN || AST_type(ret) == OP_GREATERTHAN` checked
by `Parse` (note: it inspects the *first* node of the accumulated
pipeline). -/
def headIsRedirect (t : ASTN) : Bool :=
  AST_type t = some .OP_LESSTHAN || AST_type t = some .OP_GREATERTHAN

/-- Result of processing one token of the stream. -/
inductive StepRes where
  | done (ast : ASTN)
  | fail (msg : String)
  | next (rest : List Token) (st : PState)
deriving DecidableEq, Repr

/-- One iteration of the `Parse` while-loop of parse.c, consuming the
front token (and, for redirects and pipes, the following filename/command
token).  Error messages are produced in exactly the order of the C
`snprintf` chains. -/
def parseStep (expand : Expand) : List Token → PState → StepRes
  | [], st => .done st.ret
  | .quotedWord v :: rest, st =>
      .next rest { st with ret := AST_append st.ret (.quotedWord v .nil) }
  | .word v :: rest, st =>
      match expand v with
      | .error _ => .fail "Glob encountered an error"
      | .ok paths => .next rest { st with ret := glob_append st.ret paths }
  | .lessThan :: rest, st =>
      let rin' := st.rin + 1
      if st.ret = .nil then .fail "No command specified"
      else if headIsRedirect st.ret then .fail "No command specified"
      else if rin' > 1 ∨ st.rout > 1 then .fail "Multiple redirection"
      else match rest with
        | .word fv :: rest' =>
          match expand fv with
          | .error _ => .fail "Glob encountered an error"
          | .ok paths =>
            -- AST_redirect asserts a non-null WORD target chain
            match glob_append .nil paths with
            | .nil => .fail "assertion failure in AST_redirect"
            | tf => .next rest'
                { st with rin := rin', ret := AST_append st.ret (.lessThan tf) }
        | _ => .fail "Expect filename after redirection"
  | .greaterThan :: rest, st =>
      let rout' := st.rout + 1
      if st.ret = .nil then .fail "No command specified"
      else if headIsRedirect st.ret then .fail "No command specified"
      else if st.rin > 1 ∨ rout' > 1 then .fail "Multiple redirection"
      else match rest with
        | .word fv :: rest' =>
          match expand fv with
          | .error _ => .fail "Glob encountered an error"
          | .ok paths =>
            match glob_append .nil paths with
            | .nil => .fail "assertion failure in AST_redirect"
            | tf => .next rest'
                { st with rout := rout', ret := AST_append st.ret (.greaterThan tf) }
        | _ => .fail "Expect filename after redirection"
  | .pipe :: rest, st =>
      if st.ret = .nil then .fail "No command specified"
      else match rest with
        | .word v :: rest' =>
          match expand v with
          | .error _ => .fail "Glob encountered an error"
          | .ok paths =>
            -- AST_pipe asserts both children non-null
            match glob_append .nil paths with
            | .nil => .fail "assertion failure in AST_pipe"
            | cmd => .next rest' { st with ret := .pipe st.ret cmd }
        | .quotedWord v :: rest' =>
            .next rest' { st with ret := .pipe st.ret (.quotedWord v .nil) }
        | _ => .fail "No command specified"

/-- The `Parse` while-loop of parse.c (structurally recursive rendering of
the same iteration as `parseStep`; `ParseLoop_eq_step` below proves the two
agree). -/
def ParseLoop (expand : Expand) : List Token → PState → Except String ASTN
  | [], st => .ok st.ret
  | .quotedWord v :: rest, st =>
      ParseLoop expand rest { st with ret := AST_append st.ret (.quotedWord v .nil) }
  | .word v :: rest, st =>
      match expand v with
      | .error _ => .error "Glob encountered an error"
      | .ok paths => ParseLoop expand rest { st with ret := glob_append st.ret paths }
  | .lessThan :: rest, st =>
      let rin' := st.rin + 1
      if st.ret = .nil then .error "No command specified"
      else if headIsRedirect st.ret then .error "No command specified"
      else if rin' > 1 ∨ st.rout > 1 then .error "Multiple redirection"
      else match rest with
        | .word fv :: rest' =>
          match expand fv with
          | .error _ => .error "Glob encountered an error"
          | .ok paths =>
            match glob_append .nil paths with
            | .nil => .error "assertion failure in AST_redirect"
            | tf => ParseLoop expand rest'
                { st with rin := rin', ret := AST_append st.ret (.lessThan tf) }
        | _ => .error "Expect filename after redirection"
  | .greaterThan :: rest, st =>
      let rout' := st.rout + 1
      if st.ret = .nil then .error "No command specified"
      else if headIsRedirect st.ret then .error "No command specified"
      else if st.rin > 1 ∨ rout' > 1 then .error "Multiple redirection"
      else match rest with
        | .word fv :: rest' =>
          match expand fv with
          | .error _ => .error "Glob encountered an error"
          | .ok paths =>
            match glob_append .nil paths with
            | .nil => .error "assertion failure in AST_redirect"
            | tf => ParseLoop expand rest'
                { st with rout := rout', ret := AST_append st.ret (.greaterThan tf) }
        | _ => .error "Expect filename after redirection"
  | .pipe :: rest, st =>
      if st.ret = .nil then .error "No command specified"
      else match rest with
        | .word v :: rest' =>
          match expand v with
          | .error _ => .error "Glob encountered an error"
          | .ok paths =>
            match glob_append .nil paths with
            | .nil => .error "assertion failure in AST_pipe"
            | cmd => ParseLoop expand rest' { st with ret := .pipe st.ret cmd }
        | .quotedWord v :: rest' =>
            ParseLoop expand rest' { st with ret := .pipe st.ret (.quotedWord v .nil) }
        | _ => .error "No command specified"

/-- `Parse` from parse.c: fold the token stream into a pipeline AST or an
error message.  (The C `Unexpected token` branch is unreachable: the
stream never materializes `TOK_END`, and the loop exits on it.) -/
def Parse (expand : Expand) (toks : List Token) : Except String ASTN :=
  ParseLoop expand toks initPState

/-! ### Reachable parser states and their invariants -/

/-- Run `k` iterations of the parse loop, stopping (with `none`) if the
loop finishes or fails earlier. -/
def iterSteps (expand : Expand) : Nat → List Token → PState →
    Option (List Token × PState)
  | 0, toks, st => some (toks, st)
  | k + 1, toks, st =>
    match parseStep expand toks st with
    | .next rest st' => iterSteps expand k rest st'
    | _ => none

/-- The state invariant maintained by the parse loop: the head of the
accumulated pipeline is never a redirect node, and once a redirect has
been counted the pipeline is non-empty. -/
def PInv (st : PState) : Prop :=
  headIsRedirect st.ret = false ∧
    (1 ≤ st.rin ∨ 1 ≤ st.rout → st.ret ≠ .nil)

/-- The counting invariant: the redirect counters track the number of
redirect nodes in the accumulated pipeline, and never exceed one in a
live state. -/
def CInv (st : PState) : Prop :=
  countLess st.ret = st.rin ∧ countGreater st.ret = st.rout ∧
    st.rin ≤ 1 ∧ st.rout ≤ 1

/-- Does the stream's next token name a command (`Word`/`QuotedWord`)?
This is the check `next_tt != TOK_WORD && next_tt != TOK_QUOTED_WORD`
performed by the pipe branch of `Parse`. -/
def nextIsCmd : List Token → Bool
  | .word _ :: _ => true
  | .quotedWord _ :: _ => true
  | _ => false

/-! ### Executor (pipeline.c, `AST_execute`) — claims C1 and C9

`AST_execute` forks one child per stage, except for the `exit`/`quit` and
`cd` built-ins which run in the parent.  We model the stage loop as a pure
function producing the parent's observable effects, and the reaping loop
over the `num_children` results of `wait` (supplied by an oracle `ws`,
since reaping order is under OS control). -/

/-- One observable parent-side effect of the stage loop. -/
inductive Eff where
  | chdirTo (dir : Option (List Char))
  | reportChdirFail
  | fork (argv : List (List Char))
deriving DecidableEq, Repr

/-- Is this effect a fork? -/
def Eff.isFork : Eff → Bool
  | .fork _ => true
  | _ => false

/-- The directory passed to `chdir` by the `cd` built-in: `argv[1]`, or the
`HOME` environment variable when the argument is absent (`chdir(NULL)` when
both are). -/
def cdTarget (argv : List (List Char)) (home : Option (List Char)) :
    Option (List Char) :=
  match argv[1]? with
  | some d => some d
  | none => home

/-- The stage loop of `AST_execute`: `exit`/`quit` terminate the shell
(`none`, for `_exit(0)`); `cd` changes directory in the parent (reporting
a failure with `perror` and continuing either way); any other command
forks a child. -/
def runStages (home : Option (List Char)) (fail : Option (List Char) → Bool) :
    List (List (List Char)) → Option (List Eff)
  | [] => some []
  | argv :: rest =>
    if argv.headD [] = strL "exit" ∨ argv.headD [] = strL "quit" then none
    else if argv.headD [] = strL "cd" then
      (runStages home fail rest).map (fun effs =>
        .chdirTo (cdTarget argv home) ::
          (if fail (cdTarget argv home) then .reportChdirFail :: effs else effs))
    else
      (runStages home fail rest).map (fun effs => .fork argv :: effs)

/-- `WEXITSTATUS`: bits 8..15 of the raw wait status. -/
def wexitstatus (st : Nat) : Nat := st / 256 % 256

/-- One iteration of the reaping loop: a result with a positive pid and a
non-zero exit status overwrites the aggregate. -/
def waitStep (acc : Nat) (w : Int × Nat) : Nat :=
  if 0 < w.1 ∧ wexitstatus w.2 ≠ 0 then wexitstatus w.2 else acc

/-- The reaping loop of `AST_execute`, folded over the `wait` results. -/
def waitAggregate (l : List (Int × Nat)) : Nat := l.foldl waitStep 0

/-- `setargs`: the argv entries contributed by one chain (a `Redirect`
node contributes the marker `"<"`/`">"`; its target words follow in the
same chain; a stray `pipe` node inside a chain contributes nothing, as in
the C loop). -/
def chainArgv : ASTN → List (List Char)
  | .nil => []
  | .word v r => v :: chainArgv r
  | .quotedWord v r => v :: chainArgv r
  | .lessThan r => strL "<" :: chainArgv r
  | .greaterThan r => strL ">" :: chainArgv r
  | .pipe _ r => chainArgv r

/-- `setargs` from pipeline.c: the stages of the pipe spine, leftmost
first; a `pipe` node's stage is its `right` chain. -/
def stagesOf : ASTN → List (List (List Char))
  | .nil => []
  | .pipe l r => stagesOf l ++ [chainArgv r]
  | n => [chainArgv n]

/-- `AST_execute` from pipeline.c (the exit-status-returning revision):
run the stage loop, then reap `num_pipes + 1` children, returning the
aggregate exit status and the parent-side effect trace, or `none` when an
`exit`/`quit` stage terminated the shell. -/
def AST_execute (ast : ASTN) (home : Option (List Char))
    (fail : Option (List Char) → Bool) (ws : Nat → Int × Nat) :
    Option (Nat × List Eff) :=
  match runStages home fail (stagesOf ast) with
  | none => none
  | some effs =>
    some (waitAggregate ((List.range (AST_countpipes ast + 1)).map ws), effs)

/-! ### Rendering (`AST_sprint` / `AST_pipeline2str`) — claims C7 and C8

The output buffer is modelled explicitly: a capacity, the in-bounds
contents, and a record of every out-of-bounds access.  Indices are `Int`:
the C code indexes with `size_t`, whose wrap-around at `2^64` combined
with pointer arithmetic nets out to negative offsets from the buffer base
(e.g. `buf[--size]` with `size == 0` touches the byte before the buffer),
which we render directly as the negative index. -/

structure Buf where
  cap : Nat
  data : Nat → Char
  oobW : List Int
  oobR : List Int

/-- Write one byte, recording the index when it lies outside the buffer. -/
def bwrite (b : Buf) (i : Int) (c : Char) : Buf :=
  if 0 ≤ i ∧ i < (b.cap : Int) then
    { b with data := fun j => if (j : Int) = i then c else b.data j }
  else
    { b with oobW := b.oobW ++ [i] }

/-- Read one byte; an out-of-bounds read is recorded and returns NUL (the
concrete value C would read there is unknowable; the access itself is the
violation). -/
def bread (b : Buf) (i : Int) : Char × Buf :=
  if 0 ≤ i ∧ i < (b.cap : Int) then (b.data i.toNat, b)
  else ('\x00', { b with oobR := b.oobR ++ [i] })

/-- Write a run of bytes at consecutive indices. -/
def writeChars (b : Buf) (off : Int) : List Char → Buf
  | [] => b
  | c :: cs => writeChars (bwrite b off c) (off + 1) cs

/-- `snprintf(buf + off, n, …)` for a rendered piece `s`: writes
`min (n-1) s.length` characters plus a terminating NUL when `n > 0`,
writes nothing when `n = 0`, and returns the full length of `s`. -/
def snprintfModel (b : Buf) (off : Nat) (n : Nat) (s : List Char) :
    Buf × Nat :=
  if n = 0 then (b, s.length)
  else
    let written := s.take (n - 1)
    (bwrite (writeChars b (off : Int) written)
      ((off : Int) + written.length) '\x00', s.length)

/-- `AST_sprint` from pipeline.c: render the pipeline into the buffer,
advancing the module-level `size` cursor by
`min(buf_sz - size, snprintf(...))` per piece; each call returns early
when the pipeline is null or the cursor has reached the capacity. -/
def AST_sprint : ASTN → Nat × Buf → Nat × Buf
  | .nil, st => st
  | .word v r, (size, b) =>
    if size ≥ b.cap then (size, b)
    else
      let p := snprintfModel b size (b.cap - size) (v ++ [' '])
      AST_sprint r (size + min (b.cap - size) p.2, p.1)
  | .quotedWord v r, (size, b) =>
    if size ≥ b.cap then (size, b)
    else
      let p := snprintfModel b size (b.cap - size) (v ++ [' '])
      AST_sprint r (size + min (b.cap - size) p.2, p.1)
  | .lessThan r, (size, b) =>
    if size ≥ b.cap then (size, b)
    else
      let p := snprintfModel b size (b.cap - size) ['<', ' ']
      AST_sprint r (size + min (b.cap - size) p.2, p.1)
  | .greaterThan r, (size, b) =>
    if size ≥ b.cap then (size, b)
    else
      let p := snprintfModel b size (b.cap - size) ['>', ' ']
      AST_sprint r (size + min (b.cap - size) p.2, p.1)
  | .pipe l r, (size, b) =>
    if size ≥ b.cap then (size, b)
    else
      let q := AST_sprint l (size, b)
      let p := snprintfModel q.2 q.1 (q.2.cap - q.1) ['|', ' ']
      AST_sprint r (q.1 + min (q.2.cap - q.1) p.2, p.1)

/-- The trailing-space trim loop `while (buf[size-1] == ' ') --size;`.
The fuel bounds the descent; an out-of-bounds read yields NUL and stops
the loop (recording the violation). -/
def trimLoop : Nat → Buf → Int → Int × Buf
  | 0, b, size => (size, b)
  | f + 1, b, size =>
    let p := bread b (size - 1)
    if p.1 = ' ' then trimLoop f p.2 (size - 1) else (size, p.2)

/-- `AST_pipeline2str` from pipeline.c: render, trim trailing spaces, then
NUL-terminate — or, when the buffer filled up, step the cursor back
(`buf[--size] = 0`), and place the `'$'` truncation marker before it. -/
def AST_pipeline2str (t : ASTN) (cap : Nat) : Int × Buf :=
  let b0 : Buf := ⟨cap, fun _ => '\x00', [], []⟩
  let q := AST_sprint t (0, b0)
  let r := trimLoop (q.1 + 2) q.2 (q.1 : Int)
  if r.1 < (cap : Int) then (r.1, bwrite r.2 r.1 '\x00')
  else
    (r.1 - 1, bwrite (bwrite r.2 (r.1 - 1) '\x00') (r.1 - 2) '$')

/-- The in-bounds contents of the first `n` buffer cells. -/
def bufList (b : Buf) (n : Nat) : List Char :=
  (List.range n).map b.data

/-! ### Round-trip rendering (claim C8) -/

/-- The rendered pieces of a pipeline, in output order: one `"… "` piece
per node (`AST_sprint` prints each word, redirect marker and pipe marker
followed by one space, the pipe after its left subtree). -/
def pieces : ASTN → List (List Char)
  | .nil => []
  | .word v r => (v ++ [' ']) :: pieces r
  | .quotedWord v r => (v ++ [' ']) :: pieces r
  | .lessThan r => ['<', ' '] :: pieces r
  | .greaterThan r => ['>', ' '] :: pieces r
  | .pipe l r => pieces l ++ ['|', ' '] :: pieces r

/-- The full rendered text of a pipeline (before trimming). -/
def renderText (t : ASTN) : List Char := (pieces t).flatten

/-- The argument chain built by the parser from a list of plain words. -/
def chainOf : List (List Char) → ASTN
  | [] => .nil
  | w :: ws => .word w (chainOf ws)

/-- Words joined by single spaces (the normalized command text). -/
def sepSpace : List (List Char) → List Char
  | [] => []
  | [w] => w
  | w :: ws => w ++ ' ' :: sepSpace ws

/-- A character that the tokenizer treats as plain word material: not a
quote, escape, operator, or whitespace. -/
def Ordinary (c : Char) : Prop :=
  c ≠ '"' ∧ c ≠ '\\' ∧ c ≠ '<' ∧ c ≠ '>' ∧ c ≠ '|' ∧ isspaceC c = false

instance (c : Char) : Decidable (Ordinary c) := by
  unfold Ordinary; infer_instance

/-- A command line made of the given words separated by runs of spaces
(run lengths from `ks`, defaulting to 1). -/
def textOf : List (List Char) → List Nat → List Char
  | [], _ => []
  | [w], _ => w
  | w :: ws, ks => w ++ List.replicate (ks.headD 1) ' ' ++ textOf ws ks.tail

/-- The full specification of one `AST_sprint` call under a sufficiently
large buffer: cursor advanced by the rendered length, text laid down at
the cursor, a NUL after it (for non-null pipelines), no out-of-bounds
access, everything else untouched. -/
def SprintSpec (t : ASTN) : Prop :=
  ∀ (size : Nat) (b : Buf), size + (renderText t).length + 1 ≤ b.cap →
    (AST_sprint t (size, b)).1 = size + (renderText t).length ∧
    (AST_sprint t (size, b)).2.cap = b.cap ∧
    (AST_sprint t (size, b)).2.oobW = b.oobW ∧
    (AST_sprint t (size, b)).2.oobR = b.oobR ∧
    ∀ i : Nat, (AST_sprint t (size, b)).2.data i =
      if size ≤ i ∧ i < size + (renderText t).length then
        (renderText t).getD (i - size) '\x00'
      else if i = size + (renderText t).length ∧ t ≠ .nil then '\x00'
      else b.data i

/-- The pending word extended by a run of characters (no-op on an empty
run). -/
def extendP (p : Option (List Char)) (w : List Char) : Option (List Char) :=
  if w = [] then p else some (p.getD [] ++ w)

example : TOK_tokenize_input (strL "ls --color") =
    .ok [.word (strL "ls"), .word (strL "--color")] := by rfl

example : TOK_tokenize_input (strL "wc\"-l\"") =
    .ok [.word (strL "wc"), .quotedWord (strL "\"-l\"")] := by rfl

example : TOK_tokenize_input (strL "echo \\c") =
    .error (.illegalEscape 'c') := by rfl

example : TOK_tokenize_input (strL "echo \"\\b\"") =
    .error (.illegalEscape 'b') := by rfl

example : TOK_tokenize_input (strL "echo \"hi") =
    .error .unterminatedQuote := by rfl

example : TOK_tokenize_input (strL "a\\ b") =
    .ok [.word (strL "a\\ b")] := by rfl

example : TOK_tokenize_input (strL "") = .ok [] := by rfl

/-- A `parseStep` that continues leaves `ParseLoop` to run from the new
state: the loop body and the step function agree. -/
theorem ParseLoop_step_next (expand : Expand) (toks : List Token) (st : PState)
    (rest' : List Token) (st' : PState)
    (h : parseStep expand toks st = .next rest' st') :
    ParseLoop expand toks st = ParseLoop expand rest' st' := by
  cases toks with
  | nil => simp [parseStep] at h
  | cons t rest =>
    cases t <;> simp only [parseStep] at h <;>
      (repeat' split at h) <;> simp_all [ParseLoop]

/-- A `parseStep` that fails makes `ParseLoop` return that error. -/
theorem ParseLoop_step_fail (expand : Expand) (toks : List Token) (st : PState)
    (m : String) (h : parseStep expand toks st = .fail m) :
    ParseLoop expand toks st = .error m := by
  cases toks with
  | nil => simp [parseStep] at h
  | cons t rest =>
    cases t <;> simp only [parseStep] at h <;>
      (repeat' split at h) <;>
      (try (cases rest <;> try (rename_i t2 rest2; cases t2))) <;>
      simp_all [ParseLoop]

example : Parse globLiteral [.word (strL "ls"), .word (strL "--color")] =
    .ok (.word (strL "ls") (.word (strL "--color") .nil)) := by rfl

example : Parse globLiteral [.pipe] = .error "No command specified" := by rfl

example : Parse globLiteral
    [.word (strL "ls"), .greaterThan, .word (strL "file"),
     .greaterThan, .word (strL "file")] = .error "Multiple redirection" := by rfl

example : Parse globLiteral [.word (strL "ls"), .lessThan] =
    .error "Expect filename after redirection" := by rfl

example : Parse globLiteral
    [.word (strL "ls"), .lessThan, .quotedWord (strL "\"f\"")] =
    .error "Expect filename after redirection" := by rfl

example : Parse globLiteral [] = .ok .nil := by rfl

/-! ### Structural lemmas about `AST_append` and the redirect counts -/

/-- Appending to a non-null pipeline keeps the head node (and hence its
type): `AST_append` only extends the rightmost link. -/
theorem AST_type_append (a b : ASTN) (ha : a ≠ .nil) :
    AST_type (AST_append a b) = AST_type a := by
  cases a <;> cases b <;> simp_all [AST_append, AST_type]

/-- Appending to a non-null pipeline yields a non-null pipeline. -/
theorem AST_append_ne_nil (a b : ASTN) (ha : a ≠ .nil) :
    AST_append a b ≠ .nil := by
  cases a <;> cases b <;> simp_all [AST_append]

/-- `glob_append` keeps a non-null pipeline non-null. -/
theorem glob_append_ne_nil (ps : List (List Char)) (a : ASTN) (ha : a ≠ .nil) :
    glob_append a ps ≠ .nil := by
  induction ps generalizing a with
  | nil => simpa [glob_append] using ha
  | cons p ps ih =>
    simp only [glob_append, List.foldl_cons] at *
    exact ih _ (AST_append_ne_nil _ _ ha)

/-- The head of a `glob_append` result is never a redirect node. -/
theorem headIsRedirect_glob_append (ps : List (List Char)) (a : ASTN)
    (ha : headIsRedirect a = false) :
    headIsRedirect (glob_append a ps) = false := by
  induction ps generalizing a with
  | nil => simpa [glob_append] using ha
  | cons p ps ih =>
    simp only [glob_append, List.foldl_cons] at *
    apply ih
    cases a with
    | nil => simp [AST_append, headIsRedirect, AST_type]
    | _ =>
      rw [headIsRedirect, AST_type_append _ _ (by simp)]
      simp_all [headIsRedirect]

/-- `AST_append` adds the appended subtree's input-redirect count. -/
theorem countLess_append (a b : ASTN) :
    countLess (AST_append a b) = countLess a + countLess b := by
  induction a <;> cases b <;> simp_all [AST_append, countLess] <;> omega

/-- `AST_append` adds the appended subtree's output-redirect count. -/
theorem countGreater_append (a b : ASTN) :
    countGreater (AST_append a b) = countGreater a + countGreater b := by
  induction a <;> cases b <;> simp_all [AST_append, countGreater] <;> omega

/-- `glob_append` appends only `WORD` nodes: redirect counts are unchanged. -/
theorem countLess_glob_append (ps : List (List Char)) (a : ASTN) :
    countLess (glob_append a ps) = countLess a := by
  induction ps generalizing a with
  | nil => simp [glob_append]
  | cons p ps ih =>
    simp only [glob_append, List.foldl_cons] at *
    rw [ih, countLess_append]
    simp [countLess]

/-- `glob_append` appends only `WORD` nodes: redirect counts are unchanged. -/
theorem countGreater_glob_append (ps : List (List Char)) (a : ASTN) :
    countGreater (glob_append a ps) = countGreater a := by
  induction ps generalizing a with
  | nil => simp [glob_append]
  | cons p ps ih =>
    simp only [glob_append, List.foldl_cons] at *
    rw [ih, countGreater_append]
    simp [countGreater]

/-- Reaching an intermediate state and continuing is the same as running
the loop from the start. -/
theorem ParseLoop_iterSteps (expand : Expand) (k : Nat) (toks : List Token)
    (st : PState) (toks' : List Token) (st' : PState)
    (h : iterSteps expand k toks st = some (toks', st')) :
    ParseLoop expand toks st = ParseLoop expand toks' st' := by
  induction k generalizing toks st with
  | zero => simp [iterSteps] at h; rw [h.1, h.2]
  | succ k ih =>
    simp only [iterSteps] at h
    split at h
    · next rest stm hstep =>
      rw [ParseLoop_step_next expand toks st rest stm hstep]
      exact ih _ _ h
    · exact absurd h (by simp)

/-- Appending a subtree whose head is not a redirect keeps the head
non-redirect. -/
theorem headIsRedirect_append (a b : ASTN) (ha : headIsRedirect a = false)
    (hb : headIsRedirect b = false) :
    headIsRedirect (AST_append a b) = false := by
  cases a <;> cases b <;> simp_all [AST_append, headIsRedirect, AST_type]

/-- Appending a non-null subtree always yields a non-null pipeline. -/
theorem AST_append_ne_nil_right (a b : ASTN) (hb : b ≠ .nil) :
    AST_append a b ≠ .nil := by
  cases a <;> cases b <;> simp_all [AST_append]

/-- `parseStep` preserves the state invariant. -/
theorem parseStep_PInv (expand : Expand) (toks : List Token) (st : PState)
    (rest' : List Token) (st' : PState)
    (h : parseStep expand toks st = .next rest' st') (hinv : PInv st) :
    PInv st' := by
  obtain ⟨hhead, hnn⟩ := hinv
  cases toks with
  | nil => simp [parseStep] at h
  | cons t rest =>
    cases t with
    | word v =>
      simp only [parseStep] at h
      cases hex : expand v with
      | error e => rw [hex] at h; cases h
      | ok paths =>
        rw [hex] at h
        cases h
        refine ⟨headIsRedirect_glob_append _ _ hhead, fun hc => ?_⟩
        exact glob_append_ne_nil _ _ (hnn (by simpa using hc))
    | quotedWord v =>
      simp only [parseStep] at h
      cases h
      refine ⟨?_, fun _ => AST_append_ne_nil_right _ _ (by simp)⟩
      exact headIsRedirect_append _ _ hhead (by simp [headIsRedirect, AST_type])
    | lessThan =>
      simp only [parseStep] at h
      by_cases hne : st.ret = ASTN.nil
      · simp [hne] at h
      · rw [if_neg hne, hhead] at h
        simp only [Bool.false_eq_true, if_false] at h
        by_cases hcnt : st.rin + 1 > 1 ∨ st.rout > 1
        · rw [if_pos hcnt] at h; cases h
        · rw [if_neg hcnt] at h
          (repeat' split at h) <;> try cases h
          refine ⟨?_, fun _ => AST_append_ne_nil _ _ hne⟩
          show headIsRedirect (AST_append st.ret _) = false
          rw [headIsRedirect, AST_type_append _ _ hne]
          simpa [headIsRedirect] using hhead
    | greaterThan =>
      simp only [parseStep] at h
      by_cases hne : st.ret = ASTN.nil
      · simp [hne] at h
      · rw [if_neg hne, hhead] at h
        simp only [Bool.false_eq_true, if_false] at h
        by_cases hcnt : st.rin > 1 ∨ st.rout + 1 > 1
        · rw [if_pos hcnt] at h; cases h
        · rw [if_neg hcnt] at h
          (repeat' split at h) <;> try cases h
          refine ⟨?_, fun _ => AST_append_ne_nil _ _ hne⟩
          show headIsRedirect (AST_append st.ret _) = false
          rw [headIsRedirect, AST_type_append _ _ hne]
          simpa [headIsRedirect] using hhead
    | pipe =>
      simp only [parseStep] at h
      (repeat' split at h) <;> try cases h
      all_goals exact ⟨by simp [headIsRedirect, AST_type], by simp⟩

/-- Any state reached by running the loop from the initial state satisfies
the invariant. -/
theorem iterSteps_PInv (expand : Expand) (k : Nat) (toks : List Token)
    (st : PState) (toks' : List Token) (st' : PState)
    (h : iterSteps expand k toks st = some (toks', st')) (hinv : PInv st) :
    PInv st' := by
  induction k generalizing toks st with
  | zero => simp [iterSteps] at h; rw [h.2] at hinv; exact hinv
  | succ k ih =>
    simp only [iterSteps] at h
    split at h
    · next rest stm hstep => exact ih _ _ h (parseStep_PInv _ _ _ _ _ hstep hinv)
    · exact absurd h (by simp)

/-- Each continuing loop iteration consumes at least one token. -/
theorem parseStep_next_length (expand : Expand) (t : Token) (rest : List Token)
    (st : PState) (rest' : List Token) (st' : PState)
    (h : parseStep expand (t :: rest) st = .next rest' st') :
    rest'.length < (t :: rest).length := by
  cases t <;> simp only [parseStep] at h <;> (repeat' split at h) <;>
    (try cases h) <;> simp_all <;> omega

/-- `parseStep` preserves the counting invariant. -/
theorem parseStep_CInv (expand : Expand) (toks : List Token) (st : PState)
    (rest' : List Token) (st' : PState)
    (h : parseStep expand toks st = .next rest' st') (hinv : CInv st) :
    CInv st' := by
  obtain ⟨hl, hg, hl1, hg1⟩ := hinv
  cases toks with
  | nil => simp [parseStep] at h
  | cons t rest =>
    cases t with
    | word v =>
      simp only [parseStep] at h
      cases hex : expand v with
      | error e => rw [hex] at h; cases h
      | ok paths =>
        rw [hex] at h
        cases h
        exact ⟨by simp [countLess_glob_append, hl], by simp [countGreater_glob_append, hg],
          hl1, hg1⟩
    | quotedWord v =>
      simp only [parseStep] at h
      cases h
      exact ⟨by simp [countLess_append, countLess, hl], by
        simp [countGreater_append, countGreater, hg], hl1, hg1⟩
    | lessThan =>
      simp only [parseStep] at h
      by_cases hne : st.ret = ASTN.nil
      · simp [hne] at h
      · rw [if_neg hne] at h
        split at h
        · cases h
        · by_cases hcnt : st.rin + 1 > 1 ∨ st.rout > 1
          · rw [if_pos hcnt] at h; cases h
          · rw [if_neg hcnt] at h
            (repeat' split at h) <;> try cases h
            refine ⟨?_, ?_, by simp only []; omega, by simp only []; omega⟩
            · simp [countLess_append, countLess, countLess_glob_append, hl]
            · simp [countGreater_append, countGreater, countGreater_glob_append, hg]
    | greaterThan =>
      simp only [parseStep] at h
      by_cases hne : st.ret = ASTN.nil
      · simp [hne] at h
      · rw [if_neg hne] at h
        split at h
        · cases h
        · by_cases hcnt : st.rin > 1 ∨ st.rout + 1 > 1
          · rw [if_pos hcnt] at h; cases h
          · rw [if_neg hcnt] at h
            (repeat' split at h) <;> try cases h
            refine ⟨?_, ?_, by simp only []; omega, by simp only []; omega⟩
            · simp [countLess_append, countLess, countLess_glob_append, hl]
            · simp [countGreater_append, countGreater, countGreater_glob_append, hg]
    | pipe =>
      simp only [parseStep] at h
      (repeat' split at h) <;> try cases h
      · exact ⟨by simp [countLess, countLess_glob_append, hl], by
          simp [countGreater, countGreater_glob_append, hg], hl1, hg1⟩
      · exact ⟨by simp [countLess, hl], by simp [countGreater, hg], hl1, hg1⟩

/-- If the loop succeeds from a state satisfying the counting invariant,
the resulting AST has at most one redirect of each direction. -/
theorem ParseLoop_ok_counts (expand : Expand) :
    ∀ (n : Nat) (toks : List Token) (st : PState) (ast : ASTN),
      toks.length ≤ n → CInv st → ParseLoop expand toks st = .ok ast →
      countLess ast ≤ 1 ∧ countGreater ast ≤ 1 := by
  intro n
  induction n with
  | zero =>
    intro toks st ast hlen hinv h
    have : toks = [] := List.length_eq_zero.mp (Nat.le_zero.mp hlen)
    subst this
    simp only [ParseLoop] at h
    cases h
    obtain ⟨hl, hg, hl1, hg1⟩ := hinv
    omega
  | succ n ih =>
    intro toks st ast hlen hinv h
    cases toks with
    | nil =>
      simp only [ParseLoop] at h
      cases h
      obtain ⟨hl, hg, hl1, hg1⟩ := hinv
      omega
    | cons t rest =>
      cases hs : parseStep expand (t :: rest) st with
      | done a => cases t <;> simp [parseStep] at hs <;> (repeat' split at hs) <;> cases hs
      | fail m => rw [ParseLoop_step_fail _ _ _ _ hs] at h; cases h
      | next rest2 st2 =>
        rw [ParseLoop_step_next _ _ _ _ _ hs] at h
        have hlt := parseStep_next_length _ _ _ _ _ _ hs
        have hlen2 : rest2.length ≤ n := by
          simp only [List.length_cons] at hlt hlen
          omega
        exact ih rest2 st2 ast hlen2 (parseStep_CInv _ _ _ _ _ hs hinv) h

/-! ### Claims C2, C3, C4, C6 -/

/-- Claim C2, counterexample.  The token stream for `a > b < c` delivers a
redirection operator (`<`) at a moment when the most recently appended node
of the pipeline under construction is a redirect node (the `Redirect(Out,
b)` appended for `> b`), yet `Parse` does not fail with "No command
specified": it succeeds and returns the chained AST.  (The C check reads
`AST_type(ret)`, the type of the *head* node of the accumulated pipeline,
which is never a redirect.) -/
theorem claim_C2_counterexample :
    Parse globLiteral
      [.word (strL "a"), .greaterThan, .word (strL "b"),
       .lessThan, .word (strL "c")] =
      .ok (.word (strL "a") (.greaterThan (.word (strL "b")
        (.lessThan (.word (strL "c") .nil))))) := by rfl

/-- Claim C2, amended.  `Parse` reports "No command specified" on a
redirection token when the accumulated pipeline is empty, or when the
*head* node of the accumulated pipeline (not the most recently appended
node) is itself a redirect; in that case the error fires for either
direction, before any other check. -/
theorem claim_C2 (expand : Expand) (rest : List Token) (rin rout : Nat)
    (n : ASTN)
    (hn : AST_type n = some .OP_LESSTHAN ∨ AST_type n = some .OP_GREATERTHAN) :
    ParseLoop expand (.lessThan :: rest) ⟨rin, rout, n⟩ =
        .error "No command specified" ∧
      ParseLoop expand (.greaterThan :: rest) ⟨rin, rout, n⟩ =
        .error "No command specified" ∧
      ParseLoop expand (.lessThan :: rest) ⟨rin, rout, .nil⟩ =
        .error "No command specified" ∧
      ParseLoop expand (.greaterThan :: rest) ⟨rin, rout, .nil⟩ =
        .error "No command specified" := by
  have hne : n ≠ ASTN.nil := by
    cases n <;> simp_all [AST_type]
  have hh : headIsRedirect n = true := by
    simp [headIsRedirect]
    rcases hn with h | h
    · exact Or.inl h
    · exact Or.inr h
  refine ⟨?_, ?_, ?_, ?_⟩ <;> apply ParseLoop_step_fail <;>
    simp [parseStep, hne, hh]

/-- Claim C2, witness for the amended theorem. -/
theorem claim_C2_witness :
    ParseLoop globLiteral [.lessThan] ⟨0, 0, .lessThan (.word (strL "f") .nil)⟩ =
      .error "No command specified" :=
  (claim_C2 globLiteral [] 0 0 (.lessThan (.word (strL "f") .nil))
    (Or.inl (by rfl))).1

/-- Claim C3: whenever the parser, running from the initial state,
reaches a redirection token whose direction has already been counted
earlier in the same pipeline, parsing fails with "Multiple redirection";
in particular `ls > file > file` fails that way. -/
theorem claim_C3 :
    (∀ (expand : Expand) (toks : List Token) (k : Nat) (rest : List Token)
        (st : PState),
      iterSteps expand k toks initPState = some (.lessThan :: rest, st) →
      1 ≤ st.rin →
      Parse expand toks = .error "Multiple redirection") ∧
    (∀ (expand : Expand) (toks : List Token) (k : Nat) (rest : List Token)
        (st : PState),
      iterSteps expand k toks initPState = some (.greaterThan :: rest, st) →
      1 ≤ st.rout →
      Parse expand toks = .error "Multiple redirection") ∧
    Parse globLiteral
      [.word (strL "ls"), .greaterThan, .word (strL "file"),
       .greaterThan, .word (strL "file")] = .error "Multiple redirection" := by
  refine ⟨?_, ?_, by rfl⟩ <;> intro expand toks k rest st hreach hcnt
  all_goals
    have hinv : PInv st := iterSteps_PInv expand k toks initPState _ st hreach
      ⟨by simp [initPState, headIsRedirect, AST_type], by simp [initPState]⟩
    have hne : st.ret ≠ ASTN.nil := hinv.2 (by omega)
    have hh : headIsRedirect st.ret = false := hinv.1
    rw [Parse, ParseLoop_iterSteps expand k toks initPState _ st hreach]
    apply ParseLoop_step_fail
    simp [parseStep, hne, hh]
    omega

/-- Claim C3, witness: instantiating the general theorem on the
`ls > file > file` stream at the moment the second `>` is reached. -/
theorem claim_C3_witness :
    Parse globLiteral
      [.word (strL "ls"), .greaterThan, .word (strL "file"),
       .greaterThan, .word (strL "file")] = .error "Multiple redirection" :=
  claim_C3.2.1 globLiteral
    [.word (strL "ls"), .greaterThan, .word (strL "file"),
     .greaterThan, .word (strL "file")] 2 [.word (strL "file")]
    ⟨0, 1, .word (strL "ls") (.greaterThan (.word (strL "file") .nil))⟩
    (by rfl) (by decide)

/-- Claim C4: a pipe token with an empty left pipeline, or not followed by
a `Word`/`QuotedWord` token, makes `Parse` fail with "No command
specified"; in particular the single-token stream `|` fails this way. -/
theorem claim_C4 :
    (∀ (expand : Expand) (rest : List Token) (rin rout : Nat),
      ParseLoop expand (.pipe :: rest) ⟨rin, rout, .nil⟩ =
        .error "No command specified") ∧
    (∀ (expand : Expand) (rest : List Token) (st : PState),
      st.ret ≠ .nil → nextIsCmd rest = false →
      ParseLoop expand (.pipe :: rest) st = .error "No command specified") ∧
    (∀ expand : Expand, Parse expand [.pipe] = .error "No command specified") := by
  refine ⟨?_, ?_, ?_⟩
  · intro expand rest rin rout
    apply ParseLoop_step_fail
    simp [parseStep]
  · intro expand rest st hne hcmd
    apply ParseLoop_step_fail
    cases rest with
    | nil => simp [parseStep, hne]
    | cons t2 rest2 => cases t2 <;> simp_all [parseStep, nextIsCmd, hne]
  · intro expand
    apply ParseLoop_step_fail
    simp [parseStep, initPState]

/-- Claim C4, witness: `cat |` (pipe at end of stream, non-empty left). -/
theorem claim_C4_witness :
    ParseLoop globLiteral [.pipe] ⟨0, 0, .word (strL "cat") .nil⟩ =
      .error "No command specified" :=
  claim_C4.2.1 globLiteral [] ⟨0, 0, .word (strL "cat") .nil⟩
    (by decide) (by rfl)

/-- Claim C6: every AST returned by a successful `Parse` contains at most
one input-redirect node and at most one output-redirect node anywhere in
the whole tree. -/
theorem claim_C6 (expand : Expand) (toks : List Token) (ast : ASTN)
    (h : Parse expand toks = .ok ast) :
    countLess ast ≤ 1 ∧ countGreater ast ≤ 1 :=
  ParseLoop_ok_counts expand toks.length toks initPState ast le_rfl
    ⟨by simp [initPState, countLess], by simp [initPState, countGreater],
      by simp [initPState], by simp [initPState]⟩ h

/-- Claim C6, witness: the parsed `ls > file` AST has at most one redirect
of each direction. -/
theorem claim_C6_witness :
    countLess (.word (strL "ls") (.greaterThan (.word (strL "file") .nil))) ≤ 1 ∧
      countGreater (.word (strL "ls") (.greaterThan (.word (strL "file") .nil))) ≤ 1 :=
  claim_C6 globLiteral [.word (strL "ls"), .greaterThan, .word (strL "file")]
    (.word (strL "ls") (.greaterThan (.word (strL "file") .nil))) (by rfl)

/-! ### Claims C5 and C10 (tokenizer) -/

/-- Scan step: an unescaped `"` in normal mode flushes the pending word
and opens a quoted word. -/
theorem tokRun_quoteOpen (rest : List Char) (pending : Option (List Char)) :
    tokRun ('"' :: rest) (.norm pending) =
      match tokRun rest (.quote ['"']) with
      | .error e => .error e
      | .ok ts => .ok (flushTok pending ++ ts) := by
  cases hr : tokRun rest (.quote ['"']) <;> simp [tokRun, prependTok, hr]

/-- Scan step: an operator or whitespace character in normal mode flushes
the pending word and emits the operator token (if any). -/
theorem tokRun_delim (ch : Char) (rest : List Char) (pending : Option (List Char))
    (h1 : ¬ch = '"') (h2 : (ch = '<' || ch = '>' || ch = '|' || isspaceC ch) = true) :
    tokRun (ch :: rest) (.norm pending) =
      match tokRun rest (.norm none) with
      | .error e => .error e
      | .ok ts => .ok (flushTok pending ++
          (if ch = '<' then [Token.lessThan]
           else if ch = '>' then [Token.greaterThan]
           else if ch = '|' then [Token.pipe] else []) ++ ts) := by
  have h3 : ¬ch = '\\' := by rintro rfl; simp [isspaceC] at h2
  cases hr : tokRun rest (.norm none) <;>
    simp [tokRun, prependTok, opTok, h1, h2, h3, hr]

/-- Scan step: a backslash at end of input reads the NUL terminator as the
escaped character, an illegal escape. -/
theorem tokRun_escape_end_norm (pending : Option (List Char)) :
    tokRun ['\\'] (.norm pending) = .error (.illegalEscape '\x00') := by
  simp [tokRun, isspaceC]

/-- Scan step (unquoted): a backslash followed by a legal escape character
appends both characters verbatim to the pending word. -/
theorem tokRun_escape_good_norm (c2 : Char) (rest2 : List Char)
    (pending : Option (List Char)) (h4 : isescape c2 = true) :
    tokRun ('\\' :: c2 :: rest2) (.norm pending) =
      tokRun rest2 (.norm (some (pending.getD [] ++ ['\\', c2]))) := by
  simp [tokRun, h4, isspaceC]

/-- Scan step (unquoted): a backslash followed by an illegal escape
character fails, naming that character. -/
theorem tokRun_escape_bad_norm (c2 : Char) (rest2 : List Char)
    (pending : Option (List Char)) (h4 : isescape c2 = false) :
    tokRun ('\\' :: c2 :: rest2) (.norm pending) =
      .error (.illegalEscape c2) := by
  simp [tokRun, h4, isspaceC]

/-- Scan step: an ordinary character extends the pending word. -/
theorem tokRun_plain (ch : Char) (rest : List Char) (pending : Option (List Char))
    (h1 : ¬ch = '"') (h2 : (ch = '<' || ch = '>' || ch = '|' || isspaceC ch) = false)
    (h3 : ¬ch = '\\') :
    tokRun (ch :: rest) (.norm pending) =
      tokRun rest (.norm (some (pending.getD [] ++ [ch]))) := by
  simp [tokRun, h1, h2, h3]

/-- Scan step (quoted): an unescaped `"` closes the quoted word; the token
text carries both quote characters. -/
theorem tokRun_quoteClose (rest : List Char) (acc : List Char) :
    tokRun ('"' :: rest) (.quote acc) =
      match tokRun rest (.norm none) with
      | .error e => .error e
      | .ok ts => .ok (.quotedWord (acc ++ ['"']) :: ts) := by
  cases hr : tokRun rest (.norm none) <;> simp [tokRun, prependTok, hr]

/-- Scan step (quoted): a backslash at end of input is an illegal escape of
the NUL terminator. -/
theorem tokRun_escape_end_quote (acc : List Char) :
    tokRun ['\\'] (.quote acc) = .error (.illegalEscape '\x00') := by
  simp [tokRun]

/-- Scan step (quoted): a backslash before a legal escape character keeps
the backslash and re-examines the escaped character (which may close the
quote). -/
theorem tokRun_escape_good_quote (c2 : Char) (rest2 : List Char) (acc : List Char)
    (h4 : isescape c2 = true) :
    tokRun ('\\' :: c2 :: rest2) (.quote acc) =
      tokRun (c2 :: rest2) (.quote (acc ++ ['\\'])) := by
  simp [tokRun, h4]

/-- Scan step (quoted): a backslash before an illegal escape character
fails, naming that character. -/
theorem tokRun_escape_bad_quote (c2 : Char) (rest2 : List Char) (acc : List Char)
    (h4 : isescape c2 = false) :
    tokRun ('\\' :: c2 :: rest2) (.quote acc) = .error (.illegalEscape c2) := by
  simp [tokRun, h4]

/-- Scan step (quoted): any other character is accumulated verbatim. -/
theorem tokRun_plain_quote (ch : Char) (rest : List Char) (acc : List Char)
    (h1 : ¬ch = '"') (h3 : ¬ch = '\\') :
    tokRun (ch :: rest) (.quote acc) = tokRun rest (.quote (acc ++ [ch])) := by
  simp [tokRun, h1, h3]

/-- An `Illegal escape character` error always names a character outside
the legal escape set (soundness of the error, over both scan modes). -/
theorem tokRun_illegalEscape :
    ∀ (n : Nat) (l : List Char) (mode : TokMode) (c : Char),
      l.length ≤ n → tokRun l mode = .error (.illegalEscape c) →
      isescape c = false := by
  intro n
  induction n with
  | zero =>
    intro l mode c hlen h
    have : l = [] := List.length_eq_zero.mp (Nat.le_zero.mp hlen)
    subst this
    cases mode <;> simp only [tokRun] at h <;> simp at h
  | succ n ih =>
    intro l mode c hlen h
    cases l with
    | nil => cases mode <;> simp only [tokRun] at h <;> simp at h
    | cons ch rest =>
      have hlen' : rest.length ≤ n := by
        simp only [List.length_cons] at hlen; omega
      cases mode with
      | norm pending =>
        by_cases h1 : ch = '"'
        · subst h1
          rw [tokRun_quoteOpen] at h
          cases hq : tokRun rest (.quote ['"']) with
          | error e =>
            rw [hq] at h; simp at h; rw [h] at hq
            exact ih rest _ c hlen' hq
          | ok ts => rw [hq] at h; simp at h
        · by_cases h2 : (ch = '<' || ch = '>' || ch = '|' || isspaceC ch) = true
          · rw [tokRun_delim ch rest pending h1 h2] at h
            cases hq : tokRun rest (.norm none) with
            | error e =>
              rw [hq] at h; simp at h; rw [h] at hq
              exact ih rest _ c hlen' hq
            | ok ts => rw [hq] at h; simp at h
          · by_cases h3 : ch = '\\'
            · subst h3
              cases rest with
              | nil =>
                rw [tokRun_escape_end_norm] at h
                simp at h
                subst h; decide
              | cons c2 rest2 =>
                by_cases h4 : isescape c2 = true
                · rw [tokRun_escape_good_norm c2 rest2 pending h4] at h
                  exact ih rest2 _ c (by simp at hlen'; omega) h
                · rw [tokRun_escape_bad_norm c2 rest2 pending
                    (Bool.not_eq_true _ ▸ h4)] at h
                  simp at h
                  subst h
                  simpa using h4
            · rw [tokRun_plain ch rest pending h1 (Bool.not_eq_true _ ▸ h2) h3] at h
              exact ih rest _ c hlen' h
      | quote acc =>
        by_cases h1 : ch = '"'
        · subst h1
          rw [tokRun_quoteClose] at h
          cases hq : tokRun rest (.norm none) with
          | error e =>
            rw [hq] at h; simp at h; rw [h] at hq
            exact ih rest _ c hlen' hq
          | ok ts => rw [hq] at h; simp at h
        · by_cases h3 : ch = '\\'
          · subst h3
            cases rest with
            | nil =>
              rw [tokRun_escape_end_quote] at h
              simp at h
              subst h; decide
            | cons c2 rest2 =>
              by_cases h4 : isescape c2 = true
              · rw [tokRun_escape_good_quote c2 rest2 acc h4] at h
                exact ih (c2 :: rest2) _ c hlen' h
              · rw [tokRun_escape_bad_quote c2 rest2 acc
                  (Bool.not_eq_true _ ▸ h4)] at h
                simp at h
                subst h
                simpa using h4
          · rw [tokRun_plain_quote ch rest acc h1 h3] at h
            exact ih rest _ c hlen' h

/-- Claim C5: in both quoted and unquoted regions, a backslash followed by
a character outside `{n, r, t, space, ", >, <, |, \}` makes tokenization
fail with an `Illegal escape character` error naming that character, while
a backslash followed by a character in the set is passed through verbatim
(kept undecoded in the text being accumulated; inside quotes the scan
consumes only the backslash and re-examines the escaped character, so an
escaped `"` still closes the quoted word with the `\"` pair in its text). -/
theorem claim_C5 :
    (TOK_tokenize_input (strL "echo \\c") = .error (.illegalEscape 'c')) ∧
    (TOK_tokenize_input (strL "echo \"\\b\"") = .error (.illegalEscape 'b')) ∧
    (∀ (input : List Char) (c : Char),
      TOK_tokenize_input input = .error (.illegalEscape c) →
      isescape c = false) ∧
    (∀ (rest : List Char) (pending : Option (List Char)) (c : Char),
      isescape c = false →
      tokAux ('\\' :: c :: rest) pending = .error (.illegalEscape c)) ∧
    (∀ (rest acc : List Char) (c : Char),
      isescape c = false →
      tokQuote ('\\' :: c :: rest) acc = .error (.illegalEscape c)) ∧
    (∀ (rest : List Char) (pending : Option (List Char)) (c : Char),
      isescape c = true →
      tokAux ('\\' :: c :: rest) pending =
        tokAux rest (some (pending.getD [] ++ ['\\', c]))) ∧
    (∀ (rest acc : List Char) (c : Char),
      isescape c = true →
      tokQuote ('\\' :: c :: rest) acc = tokQuote (c :: rest) (acc ++ ['\\'])) ∧
    (∀ (rest acc : List Char),
      tokQuote ('\\' :: '"' :: rest) acc =
        match tokAux rest none with
        | .error e => .error e
        | .ok ts => .ok (.quotedWord (acc ++ ['\\', '"']) :: ts)) := by
  refine ⟨by rfl, by rfl, ?_, ?_, ?_, ?_, ?_, ?_⟩
  · exact fun input c h => tokRun_illegalEscape input.length input _ c le_rfl h
  · exact fun rest pending c hc => tokRun_escape_bad_norm c rest pending hc
  · exact fun rest acc c hc => tokRun_escape_bad_quote c rest acc hc
  · exact fun rest pending c hc => tokRun_escape_good_norm c rest pending hc
  · exact fun rest acc c hc => tokRun_escape_good_quote c rest acc hc
  · intro rest acc
    rw [tokQuote, tokRun_escape_good_quote _ _ _ (by decide), tokRun_quoteClose]
    cases hq : tokRun rest (.norm none) <;> simp [tokAux, hq]

/-- Claim C5, witness: instantiating the illegal-escape step on `\q` and
the verbatim-escape step on `\n`. -/
theorem claim_C5_witness :
    tokAux ['\\', 'q'] none = .error (.illegalEscape 'q') ∧
      tokAux ['\\', 'n'] none = tokAux [] (some ['\\', 'n']) :=
  ⟨claim_C5.2.2.2.1 [] none 'q' (by decide),
    by simpa using claim_C5.2.2.2.2.2.1 [] none 'n' (by decide)⟩

/-- Claim C10: an unescaped double quote immediately after an in-progress
unquoted word first emits the pending `Word` token and then scans the
`QuotedWord`; `wc"-l"` yields `Word "wc"` followed by `QuotedWord "\"-l\""`. -/
theorem claim_C10 :
    TOK_tokenize_input (strL "wc\"-l\"") =
      .ok [.word (strL "wc"), .quotedWord (strL "\"-l\"")] ∧
    (∀ (w rest : List Char),
      tokAux ('"' :: rest) (some w) =
        match tokQuote rest ['"'] with
        | .error e => .error e
        | .ok ts => .ok (.word w :: ts)) ∧
    TOK_tokenize_input (strL "seq 10 | wc\"-l\"") =
      .ok [.word (strL "seq"), .word (strL "10"), .pipe,
        .word (strL "wc"), .quotedWord (strL "\"-l\"")] := by
  refine ⟨by rfl, ?_, by rfl⟩
  intro w rest
  rw [tokAux, tokRun_quoteOpen]
  cases hq : tokRun rest (.quote ['"']) <;> simp [tokQuote, flushTok, hq]

/-- A pipeline of external commands only forks: no built-in intercepts any
stage. -/
theorem runStages_external (home : Option (List Char))
    (fail : Option (List Char) → Bool) :
    ∀ stages : List (List (List Char)),
      (∀ argv ∈ stages, argv.headD [] ≠ strL "exit" ∧
        argv.headD [] ≠ strL "quit" ∧ argv.headD [] ≠ strL "cd") →
      runStages home fail stages = some (stages.map Eff.fork) := by
  intro stages
  induction stages with
  | nil => intro _; rfl
  | cons argv rest ih =>
    intro hext
    obtain ⟨h1, h2, h3⟩ := hext argv (by simp)
    rw [runStages, if_neg (not_or.mpr ⟨h1, h2⟩), if_neg h3,
      ih (fun a ha => hext a (by simp [ha]))]
    simp

/-- The reaping fold returns the exit status of the last valid-pid,
non-zero result, or the accumulator if there is none. -/
theorem foldl_waitStep (l : List (Int × Nat)) :
    ∀ acc : Nat,
      l.foldl waitStep acc =
        match (l.filter fun w =>
            decide (0 < w.1) && decide (wexitstatus w.2 ≠ 0)).getLast? with
        | some w => wexitstatus w.2
        | none => acc := by
  induction l with
  | nil => intro acc; rfl
  | cons w t ih =>
    intro acc
    by_cases hp : 0 < w.1 ∧ wexitstatus w.2 ≠ 0
    · have hfil : ((w :: t).filter fun w =>
          decide (0 < w.1) && decide (wexitstatus w.2 ≠ 0)) =
          w :: (t.filter fun w =>
            decide (0 < w.1) && decide (wexitstatus w.2 ≠ 0)) := by
        simp [List.filter_cons, hp.1, hp.2]
      rw [List.foldl_cons, ih, hfil]
      cases hft : (t.filter fun w =>
          decide (0 < w.1) && decide (wexitstatus w.2 ≠ 0)) with
      | nil => simp [waitStep, hp]
      | cons x xs =>
        cases hxl : (x :: xs).getLast? with
        | none => simp at hxl
        | some y => simp [hxl]
    · have hfil : ((w :: t).filter fun w =>
          decide (0 < w.1) && decide (wexitstatus w.2 ≠ 0)) =
          t.filter fun w =>
            decide (0 < w.1) && decide (wexitstatus w.2 ≠ 0) := by
        rw [List.filter_cons, if_neg (by simpa using hp)]
      rw [List.foldl_cons, hfil, ih]
      have : waitStep acc w = acc := by simp [waitStep, hp]
      rw [this]

/-- Claim C1: with only external commands, `AST_execute` forks every stage
and returns the aggregate of the reaping loop, which is 0 when every
reaped child exited 0 and otherwise the exit status of the last child
reaped with a non-zero status; a wait result with a non-positive child id
never contributes. -/
theorem claim_C1 (ast : ASTN) (home : Option (List Char))
    (fail : Option (List Char) → Bool) (ws : Nat → Int × Nat)
    (hext : ∀ argv ∈ stagesOf ast, argv.headD [] ≠ strL "exit" ∧
      argv.headD [] ≠ strL "quit" ∧ argv.headD [] ≠ strL "cd") :
    AST_execute ast home fail ws =
      some (waitAggregate ((List.range (AST_countpipes ast + 1)).map ws),
        (stagesOf ast).map Eff.fork) ∧
    (∀ l : List (Int × Nat),
      waitAggregate l =
        match (l.filter fun w =>
            decide (0 < w.1) && decide (wexitstatus w.2 ≠ 0)).getLast? with
        | some w => wexitstatus w.2
        | none => 0) ∧
    (∀ l : List (Int × Nat),
      (∀ w ∈ l, 0 < w.1 → wexitstatus w.2 = 0) → waitAggregate l = 0) ∧
    (∀ l : List (Int × Nat),
      waitAggregate l = waitAggregate (l.filter fun w => decide (0 < w.1))) := by
  refine ⟨?_, fun l => foldl_waitStep l 0, ?_, ?_⟩
  · rw [AST_execute, runStages_external home fail _ hext]
  · intro l hz
    rw [waitAggregate, foldl_waitStep l 0]
    have : (l.filter fun w =>
        decide (0 < w.1) && decide (wexitstatus w.2 ≠ 0)) = [] := by
      apply List.filter_eq_nil_iff.mpr
      intro w hw
      by_cases hpid : 0 < w.1
      · simp [hpid, hz w hw hpid]
      · simp [hpid]
    rw [this]
    rfl
  · intro l
    have H : ∀ (t : List (Int × Nat)) (acc : Nat),
        t.foldl waitStep acc =
          (t.filter fun w => decide (0 < w.1)).foldl waitStep acc := by
      intro t
      induction t with
      | nil => intro acc; rfl
      | cons w t ih =>
        intro acc
        by_cases hpid : 0 < w.1
        · rw [List.filter_cons, if_pos (by simpa using hpid),
            List.foldl_cons, List.foldl_cons, ih]
        · rw [List.filter_cons, if_neg (by simpa using hpid), List.foldl_cons]
          have hs : waitStep acc w = acc := by simp [waitStep, hpid]
          rw [hs, ih]
    exact H l 0

/-- Claim C1, witness: a one-stage external pipeline whose only wait
result has pid 5 and raw status 256 (`WEXITSTATUS` 1). -/
theorem claim_C1_witness :
    AST_execute (.word (strL "ls") .nil) none (fun _ => false)
        (fun _ => ((5 : Int), 256)) =
      some (waitAggregate ((List.range (AST_countpipes (.word (strL "ls") .nil) + 1)).map
          (fun _ => ((5 : Int), 256))),
        (stagesOf (.word (strL "ls") .nil)).map Eff.fork) :=
  (claim_C1 (.word (strL "ls") .nil) none (fun _ => false)
    (fun _ => ((5 : Int), 256)) (by decide)).1

/-- Claim C9: a stage whose command name is `cd` runs in the parent: the
executor emits a `chdir` to the stage's first argument (or the home
directory when it is absent), forks nothing for that stage, reports a
failed directory change, and continues with the remaining stages whether
or not the change succeeded. -/
theorem claim_C9 (home : Option (List Char)) (fail : Option (List Char) → Bool)
    (argv : List (List Char)) (rest : List (List (List Char)))
    (hcd : argv.headD [] = strL "cd") :
    runStages home fail (argv :: rest) =
      (runStages home fail rest).map (fun effs =>
        .chdirTo (cdTarget argv home) ::
          (if fail (cdTarget argv home) then Eff.reportChdirFail :: effs
           else effs)) ∧
    (∀ e ∈ (Eff.chdirTo (cdTarget argv home) ::
        (if fail (cdTarget argv home) then [Eff.reportChdirFail] else [])),
      e.isFork = false) ∧
    (∀ w : List Char,
      cdTarget [strL "cd"] home = home ∧ cdTarget [strL "cd", w] home = some w) := by
  refine ⟨?_, ?_, ?_⟩
  · rw [runStages, hcd, if_neg (by decide), if_pos rfl]
  · intro e he
    rcases List.mem_cons.mp he with rfl | hmem
    · rfl
    · split at hmem <;> simp_all [Eff.isFork]
  · intro w
    exact ⟨rfl, rfl⟩

/-- Claim C9, witness: `cd` with no argument targets the home directory and
forks nothing. -/
theorem claim_C9_witness :
    runStages (some (strL "/home/u")) (fun _ => false) [[strL "cd"]] =
      (runStages (some (strL "/home/u")) (fun _ => false) []).map (fun effs =>
        .chdirTo (cdTarget [strL "cd"] (some (strL "/home/u"))) ::
          (if (fun _ => false) (cdTarget [strL "cd"] (some (strL "/home/u")))
           then Eff.reportChdirFail :: effs else effs)) :=
  (claim_C9 (some (strL "/home/u")) (fun _ => false) [strL "cd"] [] (by rfl)).1

example : (AST_pipeline2str (.word (strL "ls") (.word (strL "--color") .nil)) 64).1 = 10 := by rfl

example :
    bufList (AST_pipeline2str (.word (strL "ls") (.word (strL "--color") .nil)) 64).2 10 =
      strL "ls --color" := by rfl

/-- Claim C7: the renderer does *not* always stay inside the buffer.  With
`buf_sz = 1` and a non-empty pipeline it writes the `'$'` truncation
marker one byte before the buffer (after a `size_t` underflow); with
`buf_sz = 0` both terminator writes land before the buffer; and for the
empty pipeline the trim loop reads `buf[-1]`.  (With `buf_sz ≥ 2` the
truncation path behaves as documented: `"abcdef"` into a 4-byte buffer
yields `"ab$"`, NUL-terminated, all accesses in bounds.)  This contradicts
the pipeline.h contract "in no case will this function write characters
beyond the end of buf" — the code, not the claim, is wrong. -/
theorem claim_C7 :
    (AST_pipeline2str (.word (strL "ls") .nil) 1).2.oobW = [(-1 : Int)] ∧
    (AST_pipeline2str .nil 4).2.oobR = [(-1 : Int)] ∧
    (AST_pipeline2str .nil 0).2.oobW = [(-1 : Int), (-2 : Int)] ∧
    ((AST_pipeline2str (.word (strL "abcdef") .nil) 4).1 = 3 ∧
      bufList (AST_pipeline2str (.word (strL "abcdef") .nil) 4).2 4 =
        strL "ab$" ++ ['\x00'] ∧
      (AST_pipeline2str (.word (strL "abcdef") .nil) 4).2.oobW = [] ∧
      (AST_pipeline2str (.word (strL "abcdef") .nil) 4).2.oobR = []) := by
  refine ⟨by rfl, by rfl, by rfl, by rfl, ?_, by rfl, by rfl⟩
  rfl

/-- `bwrite` never changes the capacity. -/
theorem bwrite_cap (b : Buf) (i : Int) (c : Char) : (bwrite b i c).cap = b.cap := by
  rw [bwrite]; split <;> rfl

/-- An in-bounds write updates the cell and records nothing. -/
theorem bwrite_inb (b : Buf) (i : Nat) (c : Char) (h : i < b.cap) :
    (bwrite b (i : Int) c).cap = b.cap ∧
    (bwrite b (i : Int) c).oobW = b.oobW ∧
    (bwrite b (i : Int) c).oobR = b.oobR ∧
    ∀ j : Nat, (bwrite b (i : Int) c).data j = if j = i then c else b.data j := by
  rw [bwrite, if_pos ⟨Int.natCast_nonneg i, by exact_mod_cast h⟩]
  refine ⟨rfl, rfl, rfl, fun j => ?_⟩
  by_cases hj : j = i <;> simp [hj]

/-- An in-bounds read returns the cell and records nothing. -/
theorem bread_inb (b : Buf) (i : Nat) (h : i < b.cap) :
    bread b (i : Int) = (b.data i, b) := by
  rw [bread, if_pos ⟨Int.natCast_nonneg i, by exact_mod_cast h⟩]
  simp

/-- Writing a run of bytes wholly inside the buffer lays the run down at
its offset and touches nothing else. -/
theorem writeChars_spec (s : List Char) :
    ∀ (b : Buf) (off : Nat), off + s.length ≤ b.cap →
      (writeChars b (off : Int) s).cap = b.cap ∧
      (writeChars b (off : Int) s).oobW = b.oobW ∧
      (writeChars b (off : Int) s).oobR = b.oobR ∧
      ∀ i : Nat, (writeChars b (off : Int) s).data i =
        if off ≤ i ∧ i < off + s.length then s.getD (i - off) '\x00'
        else b.data i := by
  induction s with
  | nil =>
    intro b off hcap
    refine ⟨rfl, rfl, rfl, fun i => ?_⟩
    simp only [writeChars, List.length_nil, Nat.add_zero]
    rw [if_neg (by omega)]
  | cons c cs ih =>
    intro b off hcap
    simp only [List.length_cons] at hcap
    obtain ⟨hwc, hww, hwr, hwd⟩ := bwrite_inb b off c (by omega)
    have hcast : (off : Int) + 1 = ((off + 1 : Nat) : Int) := by push_cast; ring
    simp only [writeChars, hcast]
    obtain ⟨hc, hw, hr, hd⟩ := ih (bwrite b (off : Int) c) (off + 1)
      (by rw [hwc]; omega)
    refine ⟨by rw [hc, hwc], by rw [hw, hww], by rw [hr, hwr], fun i => ?_⟩
    rw [hd i]
    by_cases h1 : off + 1 ≤ i ∧ i < off + 1 + cs.length
    · rw [if_pos h1, if_pos (by simp only [List.length_cons]; omega)]
      have h3 : i - off = (i - (off + 1)) + 1 := by omega
      rw [h3, List.getD_cons_succ]
    · rw [if_neg h1, hwd i]
      by_cases h2 : i = off
      · rw [if_pos h2, if_pos (by simp only [List.length_cons]; omega)]
        simp [h2]
      · rw [if_neg h2, if_neg (by simp only [List.length_cons]; omega)]

/-- A `snprintf` whose piece fits (including its NUL) writes the piece in
full, terminates it, and returns its length. -/
theorem snprintfModel_spec (b : Buf) (off n : Nat) (s : List Char)
    (hn : s.length + 1 ≤ n) (hb : off + n ≤ b.cap) :
    (snprintfModel b off n s).2 = s.length ∧
    (snprintfModel b off n s).1.cap = b.cap ∧
    (snprintfModel b off n s).1.oobW = b.oobW ∧
    (snprintfModel b off n s).1.oobR = b.oobR ∧
    ∀ i : Nat, (snprintfModel b off n s).1.data i =
      if off ≤ i ∧ i < off + s.length then s.getD (i - off) '\x00'
      else if i = off + s.length then '\x00'
      else b.data i := by
  have hn0 : n ≠ 0 := by omega
  have htake : s.take (n - 1) = s := List.take_of_length_le (by omega)
  have heq : snprintfModel b off n s =
      (bwrite (writeChars b (off : Int) s) ((off : Int) + (s.length : Int)) '\x00',
        s.length) := by
    simp [snprintfModel, hn0, htake]
  obtain ⟨hc, hw, hr, hd⟩ := writeChars_spec s b off (by omega)
  have hcast : (off : Int) + (s.length : Int) = ((off + s.length : Nat) : Int) := by
    push_cast; ring
  obtain ⟨hbc, hbw, hbr, hbd⟩ := bwrite_inb (writeChars b (off : Int) s)
    (off + s.length) '\x00' (by rw [hc]; omega)
  rw [heq, hcast]
  refine ⟨rfl, by rw [hbc, hc], by rw [hbw, hw], by rw [hbr, hr], fun i => ?_⟩
  rw [hbd i]
  by_cases h1 : i = off + s.length
  · rw [if_pos h1, if_neg (by omega), if_pos h1]
  · rw [if_neg h1, hd i]
    by_cases h2 : off ≤ i ∧ i < off + s.length
    · rw [if_pos h2, if_pos h2]
    · rw [if_neg h2, if_neg h2, if_neg h1]

/-- The rendered text is empty exactly for the null pipeline. -/
theorem renderText_nil_iff (t : ASTN) : renderText t = [] ↔ t = .nil := by
  cases t <;> simp [renderText, pieces]

/-- Common step: print one piece at the cursor, then render the rest of
the chain after it. -/
theorem sprint_piece_spec (piece : List Char) (r : ASTN) (hr : SprintSpec r)
    (size : Nat) (b : Buf) (p : Buf × Nat)
    (hp : p = snprintfModel b size (b.cap - size) piece)
    (hcap : size + (piece.length + (renderText r).length) + 1 ≤ b.cap) :
    (AST_sprint r (size + min (b.cap - size) p.2, p.1)).1 =
        size + (piece.length + (renderText r).length) ∧
    (AST_sprint r (size + min (b.cap - size) p.2, p.1)).2.cap = b.cap ∧
    (AST_sprint r (size + min (b.cap - size) p.2, p.1)).2.oobW = b.oobW ∧
    (AST_sprint r (size + min (b.cap - size) p.2, p.1)).2.oobR = b.oobR ∧
    ∀ i : Nat, (AST_sprint r (size + min (b.cap - size) p.2, p.1)).2.data i =
      if size ≤ i ∧ i < size + (piece.length + (renderText r).length) then
        (piece ++ renderText r).getD (i - size) '\x00'
      else if i = size + (piece.length + (renderText r).length) then '\x00'
      else b.data i := by
  subst hp
  obtain ⟨hret, hc, hw, hrd, hd⟩ := snprintfModel_spec b size (b.cap - size) piece
    (by omega) (by omega)
  have hmin : min (b.cap - size) (snprintfModel b size (b.cap - size) piece).2 =
      piece.length := by
    rw [hret]; exact Nat.min_eq_right (by omega)
  rw [hmin]
  obtain ⟨hr1, hr2, hr3, hr4, hr5⟩ := hr (size + piece.length)
    (snprintfModel b size (b.cap - size) piece).1 (by rw [hc]; omega)
  refine ⟨by rw [hr1]; omega, by rw [hr2, hc], by rw [hr3, hw],
    by rw [hr4, hrd], fun i => ?_⟩
  rw [hr5 i]
  by_cases hA : size + piece.length ≤ i ∧ i < size + piece.length + (renderText r).length
  · rw [if_pos hA, if_pos (by omega),
      List.getD_append_right _ _ _ _ (by omega)]
    have he : i - size - piece.length = i - (size + piece.length) := by omega
    rw [he]
  · rw [if_neg hA]
    by_cases hB : i = size + piece.length + (renderText r).length ∧ r ≠ ASTN.nil
    · rw [if_pos hB, if_neg (by omega), if_pos (by omega)]
    · by_cases hC : size ≤ i ∧ i < size + piece.length
      · rw [if_neg hB, hd i, if_pos hC, if_pos (by omega),
          List.getD_append _ _ _ _ (by omega)]
      · -- i is outside the combined region, or i is the final NUL with
        -- r = nil (then the piece's own NUL provides it)
        by_cases hD : i = size + (piece.length + (renderText r).length)
        · have hrnil : r = ASTN.nil := by
            by_contra hrn
            exact hB ⟨by omega, hrn⟩
          have hLr : renderText r = [] := (renderText_nil_iff r).mpr hrnil
          rw [if_neg hB, hd i, if_neg (by rw [hLr] at hD; simp at hD; omega),
            if_pos (by rw [hLr] at hD; simpa using hD), if_neg (by omega),
            if_pos hD]
        · rw [if_neg hB, hd i, if_neg (by omega), if_neg (by omega),
            if_neg (by omega), if_neg hD]

/-- `AST_sprint` satisfies its rendering specification on every pipeline. -/
theorem AST_sprint_ok : ∀ t : ASTN, SprintSpec t := by
  intro t
  induction t with
  | nil =>
    intro size b hcap
    refine ⟨by simp [renderText, pieces, AST_sprint], rfl, rfl, rfl, fun i => ?_⟩
    rw [if_neg (by simp [renderText, pieces]), if_neg (by simp)]
    rfl
  | word v r ihr =>
    intro size b hcap
    have hrt : renderText (ASTN.word v r) = (v ++ [' ']) ++ renderText r := by
      simp [renderText, pieces]
    have hlen : (renderText (ASTN.word v r)).length =
        (v ++ [' ']).length + (renderText r).length := by
      rw [hrt, List.length_append]
    have hstep : AST_sprint (ASTN.word v r) (size, b) =
        AST_sprint r (size + min (b.cap - size)
            (snprintfModel b size (b.cap - size) (v ++ [' '])).2,
          (snprintfModel b size (b.cap - size) (v ++ [' '])).1) := by
      simp only [AST_sprint]
      rw [if_neg (by omega)]
    obtain ⟨h1, h2, h3, h4, h5⟩ := sprint_piece_spec (v ++ [' ']) r ihr size b _ rfl
      (by rw [hlen] at hcap; omega)
    rw [hstep, hlen]
    refine ⟨h1, h2, h3, h4, fun i => ?_⟩
    rw [h5 i, hrt]
    simp only [List.length_append, ne_eq, reduceCtorEq, not_false_eq_true, and_true]
  | quotedWord v r ihr =>
    intro size b hcap
    have hrt : renderText (ASTN.quotedWord v r) = (v ++ [' ']) ++ renderText r := by
      simp [renderText, pieces]
    have hlen : (renderText (ASTN.quotedWord v r)).length =
        (v ++ [' ']).length + (renderText r).length := by
      rw [hrt, List.length_append]
    have hstep : AST_sprint (ASTN.quotedWord v r) (size, b) =
        AST_sprint r (size + min (b.cap - size)
            (snprintfModel b size (b.cap - size) (v ++ [' '])).2,
          (snprintfModel b size (b.cap - size) (v ++ [' '])).1) := by
      simp only [AST_sprint]
      rw [if_neg (by omega)]
    obtain ⟨h1, h2, h3, h4, h5⟩ := sprint_piece_spec (v ++ [' ']) r ihr size b _ rfl
      (by rw [hlen] at hcap; omega)
    rw [hstep, hlen]
    refine ⟨h1, h2, h3, h4, fun i => ?_⟩
    rw [h5 i, hrt]
    simp only [List.length_append, ne_eq, reduceCtorEq, not_false_eq_true, and_true]
  | lessThan r ihr =>
    intro size b hcap
    have hrt : renderText (ASTN.lessThan r) = ['<', ' '] ++ renderText r := by
      simp [renderText, pieces]
    have hlen : (renderText (ASTN.lessThan r)).length =
        (['<', ' '] : List Char).length + (renderText r).length := by
      rw [hrt, List.length_append]
    have hstep : AST_sprint (ASTN.lessThan r) (size, b) =
        AST_sprint r (size + min (b.cap - size)
            (snprintfModel b size (b.cap - size) ['<', ' ']).2,
          (snprintfModel b size (b.cap - size) ['<', ' ']).1) := by
      simp only [AST_sprint]
      rw [if_neg (by omega)]
    obtain ⟨h1, h2, h3, h4, h5⟩ := sprint_piece_spec ['<', ' '] r ihr size b _ rfl
      (by rw [hlen] at hcap; omega)
    rw [hstep, hlen]
    refine ⟨h1, h2, h3, h4, fun i => ?_⟩
    rw [h5 i, hrt]
    simp only [List.length_append, ne_eq, reduceCtorEq, not_false_eq_true, and_true]
  | greaterThan r ihr =>
    intro size b hcap
    have hrt : renderText (ASTN.greaterThan r) = ['>', ' '] ++ renderText r := by
      simp [renderText, pieces]
    have hlen : (renderText (ASTN.greaterThan r)).length =
        (['>', ' '] : List Char).length + (renderText r).length := by
      rw [hrt, List.length_append]
    have hstep : AST_sprint (ASTN.greaterThan r) (size, b) =
        AST_sprint r (size + min (b.cap - size)
            (snprintfModel b size (b.cap - size) ['>', ' ']).2,
          (snprintfModel b size (b.cap - size) ['>', ' ']).1) := by
      simp only [AST_sprint]
      rw [if_neg (by omega)]
    obtain ⟨h1, h2, h3, h4, h5⟩ := sprint_piece_spec ['>', ' '] r ihr size b _ rfl
      (by rw [hlen] at hcap; omega)
    rw [hstep, hlen]
    refine ⟨h1, h2, h3, h4, fun i => ?_⟩
    rw [h5 i, hrt]
    simp only [List.length_append, ne_eq, reduceCtorEq, not_false_eq_true, and_true]
  | pipe l r ihl ihr =>
    intro size b hcap
    have hrt : renderText (ASTN.pipe l r) =
        renderText l ++ (['|', ' '] ++ renderText r) := by
      simp [renderText, pieces]
    have hlen : (renderText (ASTN.pipe l r)).length =
        (renderText l).length + (2 + (renderText r).length) := by
      rw [hrt]; simp [List.length_append]; omega
    obtain ⟨hl1, hl2, hl3, hl4, hl5⟩ := ihl size b (by omega)
    have hstep : AST_sprint (ASTN.pipe l r) (size, b) =
        AST_sprint r ((AST_sprint l (size, b)).1 +
            min ((AST_sprint l (size, b)).2.cap - (AST_sprint l (size, b)).1)
              (snprintfModel (AST_sprint l (size, b)).2 (AST_sprint l (size, b)).1
                ((AST_sprint l (size, b)).2.cap - (AST_sprint l (size, b)).1)
                ['|', ' ']).2,
          (snprintfModel (AST_sprint l (size, b)).2 (AST_sprint l (size, b)).1
            ((AST_sprint l (size, b)).2.cap - (AST_sprint l (size, b)).1)
            ['|', ' ']).1) := by
      simp only [AST_sprint]
      rw [if_neg (by omega)]
    obtain ⟨h1, h2, h3, h4, h5⟩ := sprint_piece_spec ['|', ' '] r ihr
      (AST_sprint l (size, b)).1 (AST_sprint l (size, b)).2 _ rfl
      (by rw [hl1, hl2]; simp only [List.length_cons, List.length_nil]; omega)
    rw [hl1] at hstep h1 h2 h3 h4 h5
    rw [hstep, hlen]
    refine ⟨by rw [h1]; simp only [List.length_cons, List.length_nil]; omega,
      by rw [h2, hl2], by rw [h3, hl3], by rw [h4, hl4], fun i => ?_⟩
    rw [h5 i]
    have hpl : (['|', ' '] : List Char).length = 2 := rfl
    rw [hpl]
    by_cases hA : size + (renderText l).length ≤ i ∧
        i < size + (renderText l).length + (2 + (renderText r).length)
    · rw [if_pos hA,
        if_pos (show size ≤ i ∧
          i < size + ((renderText l).length + (2 + (renderText r).length)) by omega),
        hrt, List.getD_append_right (renderText l) (['|', ' '] ++ renderText r)
          '\x00' (i - size) (by omega)]
      have he : i - (size + (renderText l).length) =
          i - size - (renderText l).length := by omega
      rw [he]
    · rw [if_neg hA]
      by_cases hB : i = size + (renderText l).length + (2 + (renderText r).length)
      · rw [if_pos hB,
          if_neg (show ¬(size ≤ i ∧
            i < size + ((renderText l).length + (2 + (renderText r).length))) by omega),
          if_pos (show i = size + ((renderText l).length + (2 + (renderText r).length)) ∧
            ASTN.pipe l r ≠ ASTN.nil from ⟨by omega, by simp⟩)]
      · rw [if_neg hB, hl5 i]
        by_cases hC : size ≤ i ∧ i < size + (renderText l).length
        · rw [if_pos hC,
            if_pos (show size ≤ i ∧
              i < size + ((renderText l).length + (2 + (renderText r).length)) by omega),
            hrt, List.getD_append (renderText l) (['|', ' '] ++ renderText r)
              '\x00' (i - size) (by omega)]
        · rw [if_neg hC,
            if_neg (show ¬(i = size + (renderText l).length ∧ l ≠ ASTN.nil) by
              rintro ⟨he2, -⟩
              exact hA ⟨by omega, by omega⟩),
            if_neg (show ¬(size ≤ i ∧
              i < size + ((renderText l).length + (2 + (renderText r).length))) by omega),
            if_neg (show ¬(i = size + ((renderText l).length + (2 + (renderText r).length)) ∧
              ASTN.pipe l r ≠ ASTN.nil) by
              rintro ⟨he2, -⟩
              exact hB (by omega))]

/-- A chain of plain words renders as the words joined by single spaces,
plus one trailing space. -/
theorem renderText_chainOf :
    ∀ ws : List (List Char), ws ≠ [] →
      renderText (chainOf ws) = sepSpace ws ++ [' '] := by
  intro ws
  induction ws with
  | nil => intro h; exact absurd rfl h
  | cons w rest ih =>
    intro _
    cases rest with
    | nil => simp [chainOf, renderText, pieces, sepSpace]
    | cons w2 rest2 =>
      have hr := ih (by simp)
      simp only [chainOf, renderText, pieces, List.flatten] at hr ⊢
      rw [hr]
      simp [sepSpace]

/-- Joining non-empty words yields a non-empty text. -/
theorem sepSpace_ne_nil :
    ∀ ws : List (List Char), ws ≠ [] → (∀ w ∈ ws, w ≠ []) →
      sepSpace ws ≠ [] := by
  intro ws
  induction ws with
  | nil => intro h; exact absurd rfl h
  | cons w rest ih =>
    intro _ hw
    cases rest with
    | nil => simpa [sepSpace] using hw w (by simp)
    | cons w2 rest2 =>
      simp [sepSpace]

/-- The last character of the joined text is the last character of the
last word — never a space, when no word contains one. -/
theorem sepSpace_last :
    ∀ ws : List (List Char), ws ≠ [] →
      (∀ w ∈ ws, w ≠ [] ∧ ' ' ∉ w) →
      (sepSpace ws).getD ((sepSpace ws).length - 1) '\x00' ≠ ' ' := by
  intro ws
  induction ws with
  | nil => intro h; exact absurd rfl h
  | cons w rest ih =>
    intro _ hw
    cases rest with
    | nil =>
      obtain ⟨hne, hsp⟩ := hw w (by simp)
      simp only [sepSpace]
      have hlt : w.length - 1 < w.length := by
        cases w with
        | nil => exact absurd rfl hne
        | cons c cs => simp
      rw [List.getD_eq_getElem _ _ hlt]
      intro hcon
      exact hsp (hcon ▸ List.getElem_mem hlt)
    | cons w2 rest2 =>
      have hrest := ih (by simp) (fun a ha => hw a (by simp [ha]))
      have hrne : sepSpace (w2 :: rest2) ≠ [] :=
        sepSpace_ne_nil _ (by simp) (fun a ha => (hw a (by simp [ha])).1)
      simp only [sepSpace] at hrest ⊢
      have hlen : (w ++ ' ' :: sepSpace (w2 :: rest2)).length =
          w.length + 1 + (sepSpace (w2 :: rest2)).length := by
        simp [List.length_append]; omega
      have hpos : 1 ≤ (sepSpace (w2 :: rest2)).length :=
        List.length_pos.mpr hrne
      rw [hlen, List.getD_append_right w (' ' :: sepSpace (w2 :: rest2)) '\x00'
        (w.length + 1 + (sepSpace (w2 :: rest2)).length - 1) (by omega)]
      have he : w.length + 1 + (sepSpace (w2 :: rest2)).length - 1 - w.length =
          ((sepSpace (w2 :: rest2)).length - 1) + 1 := by omega
      rw [he, List.getD_cons_succ]
      exact hrest

/-- The parser appends each plain word at the end of the chain. -/
theorem AST_append_chainOf (l : List (List Char)) (w : List Char) :
    AST_append (chainOf l) (.word w .nil) = chainOf (l ++ [w]) := by
  induction l with
  | nil => rfl
  | cons v l ih => simp [chainOf, AST_append, ih]

/-- Parsing a stream of plain `Word` tokens under literal expansion
appends them, in order, to the accumulated chain. -/
theorem ParseLoop_words :
    ∀ (ws acc : List (List Char)) (rin rout : Nat),
      ParseLoop globLiteral (ws.map Token.word) ⟨rin, rout, chainOf acc⟩ =
        .ok (chainOf (acc ++ ws)) := by
  intro ws
  induction ws with
  | nil => intro acc rin rout; simp [ParseLoop]
  | cons w ws ih =>
    intro acc rin rout
    show ParseLoop globLiteral (Token.word w :: ws.map Token.word) _ = _
    rw [ParseLoop_step_next globLiteral _ _ (ws.map Token.word)
      ⟨rin, rout, chainOf (acc ++ [w])⟩ (by
        simp [parseStep, globLiteral, glob_append, AST_append_chainOf])]
    rw [ih (acc ++ [w]) rin rout]
    simp

theorem extendP_cons (p : Option (List Char)) (c : Char) (cs : List Char) :
    extendP p (c :: cs) = extendP (some (p.getD [] ++ [c])) cs := by
  by_cases hcs : cs = [] <;> simp [extendP, hcs, List.append_assoc]

/-- Scanning a run of ordinary characters extends the pending word. -/
theorem tokRun_ordinary :
    ∀ (w rest : List Char) (p : Option (List Char)),
      (∀ c ∈ w, Ordinary c) →
      tokRun (w ++ rest) (.norm p) = tokRun rest (.norm (extendP p w)) := by
  intro w
  induction w with
  | nil => intro rest p _; simp [extendP]
  | cons c cs ih =>
    intro rest p hord
    obtain ⟨h1, h2, h3, h4, h5, h6⟩ := hord c (by simp)
    have hop : (c = '<' || c = '>' || c = '|' || isspaceC c) = false := by
      simp [h3, h4, h5, h6]
    rw [List.cons_append, tokRun_plain c (cs ++ rest) p h1 hop h2,
      ih rest _ (fun d hd => hord d (by simp [hd])), extendP_cons]

/-- Scanning a run of spaces with no pending word emits nothing. -/
theorem tokRun_spaces (rest : List Char) :
    ∀ k : Nat, tokRun (List.replicate k ' ' ++ rest) (.norm none) =
      tokRun rest (.norm none) := by
  intro k
  induction k with
  | zero => simp
  | succ k ih =>
    rw [List.replicate_succ, List.cons_append,
      tokRun_delim ' ' _ none (by decide) (by decide), ih]
    cases hq : tokRun rest (.norm none) <;> simp [flushTok]

/-- Tokenizing words separated by runs of spaces yields exactly those
words as `Word` tokens. -/
theorem tokenize_textOf :
    ∀ (ws : List (List Char)) (ks : List Nat), ws ≠ [] →
      (∀ w ∈ ws, w ≠ [] ∧ ∀ c ∈ w, Ordinary c) →
      (∀ k ∈ ks, 1 ≤ k) →
      TOK_tokenize_input (textOf ws ks) = .ok (ws.map Token.word) := by
  intro ws
  induction ws with
  | nil => intro ks h; exact absurd rfl h
  | cons w rest ih =>
    intro ks _ hw hks
    obtain ⟨hwne, hword⟩ := hw w (by simp)
    cases rest with
    | nil =>
      show tokRun (textOf [w] ks) (.norm none) = .ok [Token.word w]
      have ht : textOf [w] ks = w ++ [] := by simp [textOf]
      rw [ht, tokRun_ordinary w [] none hword]
      simp [tokRun, extendP, hwne, flushTok]
    | cons w2 rest2 =>
      have hk : ks.headD 1 = (ks.headD 1 - 1) + 1 := by
        cases ks with
        | nil => rfl
        | cons k ks2 =>
          have := hks k (by simp)
          simp only [List.headD_cons]
          omega
      show tokRun (textOf (w :: w2 :: rest2) ks) (.norm none) = _
      have ht : textOf (w :: w2 :: rest2) ks =
          w ++ (List.replicate (ks.headD 1) ' ' ++ textOf (w2 :: rest2) ks.tail) := by
        simp [textOf]
      rw [ht, tokRun_ordinary w _ none hword]
      have hep : extendP none w = some w := by simp [extendP, hwne]
      rw [hep, hk, List.replicate_succ, List.cons_append,
        tokRun_delim ' ' _ (some w) (by decide) (by decide),
        tokRun_spaces _ (ks.headD 1 - 1)]
      have hih : tokRun (textOf (w2 :: rest2) ks.tail) (.norm none) =
          .ok ((w2 :: rest2).map Token.word) :=
        ih ks.tail (by simp) (fun a ha => hw a (by simp [ha]))
          (fun k hkm => hks k (List.mem_of_mem_tail hkm))
      rw [hih]
      simp [flushTok]

/-- One unfolding of the trim loop. -/
theorem trimLoop_succ (f : Nat) (b : Buf) (size : Int) :
    trimLoop (f + 1) b size =
      if (bread b (size - 1)).1 = ' ' then trimLoop f (bread b (size - 1)).2 (size - 1)
      else (size, (bread b (size - 1)).2) := rfl

/-- Evaluation of `AST_pipeline2str` when the buffer holds exactly the text
`T` followed by one trailing space and its NUL: the trailing space is
trimmed, the text is NUL-terminated in place, and no access leaves the
buffer. -/
theorem pipeline2str_of_sprint (t : ASTN) (T : List Char) (cap : Nat)
    (hcap : cap = T.length + 2) (hTlen : 1 ≤ T.length)
    (hlast : T.getD (T.length - 1) '\x00' ≠ ' ')
    (hq1 : (AST_sprint t (0, ⟨cap, fun _ => '\x00', [], []⟩)).1 = T.length + 1)
    (hqc : (AST_sprint t (0, ⟨cap, fun _ => '\x00', [], []⟩)).2.cap = cap)
    (hqw : (AST_sprint t (0, ⟨cap, fun _ => '\x00', [], []⟩)).2.oobW = [])
    (hqr : (AST_sprint t (0, ⟨cap, fun _ => '\x00', [], []⟩)).2.oobR = [])
    (hqd : ∀ i : Nat, i ≤ T.length →
      (AST_sprint t (0, ⟨cap, fun _ => '\x00', [], []⟩)).2.data i =
        (T ++ [' ']).getD i '\x00') :
    (AST_pipeline2str t cap).1 = (T.length : Int) ∧
    (∀ i : Nat, i < T.length →
      (AST_pipeline2str t cap).2.data i = T.getD i '\x00') ∧
    (AST_pipeline2str t cap).2.data T.length = '\x00' ∧
    (AST_pipeline2str t cap).2.oobW = [] ∧
    (AST_pipeline2str t cap).2.oobR = [] := by
  subst hcap
  have hc1 : ((T.length + 1 : Nat) : Int) - 1 = ((T.length : Nat) : Int) := by
    push_cast; ring
  have hc2 : ((T.length : Nat) : Int) - 1 = ((T.length - 1 : Nat) : Int) := by
    omega
  have hb1 : bread (AST_sprint t (0, ⟨T.length + 2, fun _ => '\x00', [], []⟩)).2
      (((T.length + 1 : Nat) : Int) - 1) =
      (' ', (AST_sprint t (0, ⟨T.length + 2, fun _ => '\x00', [], []⟩)).2) := by
    rw [hc1, bread_inb _ T.length (by rw [hqc]; omega), hqd T.length le_rfl,
      List.getD_append_right T [' '] '\x00' T.length le_rfl, Nat.sub_self]
    rfl
  have hb2 : bread (AST_sprint t (0, ⟨T.length + 2, fun _ => '\x00', [], []⟩)).2
      (((T.length : Nat) : Int) - 1) =
      (T.getD (T.length - 1) '\x00',
        (AST_sprint t (0, ⟨T.length + 2, fun _ => '\x00', [], []⟩)).2) := by
    rw [hc2, bread_inb _ (T.length - 1) (by rw [hqc]; omega),
      hqd (T.length - 1) (by omega),
      List.getD_append T [' '] '\x00' (T.length - 1) (by omega)]
  have htrim : trimLoop (T.length + 1 + 2)
      (AST_sprint t (0, ⟨T.length + 2, fun _ => '\x00', [], []⟩)).2
      ((T.length + 1 : Nat) : Int) =
      (((T.length : Nat) : Int),
        (AST_sprint t (0, ⟨T.length + 2, fun _ => '\x00', [], []⟩)).2) := by
    rw [show T.length + 1 + 2 = (T.length + 2) + 1 from rfl, trimLoop_succ, hb1]
    dsimp only
    rw [if_pos rfl, hc1,
      show T.length + 2 = (T.length + 1) + 1 from rfl, trimLoop_succ, hb2]
    dsimp only
    rw [if_neg hlast]
  have hmain : AST_pipeline2str t (T.length + 2) =
      (((T.length : Nat) : Int),
        bwrite (AST_sprint t (0, ⟨T.length + 2, fun _ => '\x00', [], []⟩)).2
          ((T.length : Nat) : Int) '\x00') := by
    simp only [AST_pipeline2str, hq1, htrim]
    rw [if_pos (by push_cast; omega)]
  obtain ⟨hwc, hww, hwr, hwd⟩ := bwrite_inb
    (AST_sprint t (0, ⟨T.length + 2, fun _ => '\x00', [], []⟩)).2
    T.length '\x00' (by rw [hqc]; omega)
  rw [hmain]
  refine ⟨rfl, fun i hi => ?_, ?_, by rw [hww, hqw], by rw [hwr, hqr]⟩
  · rw [hwd i, if_neg (by omega), hqd i (by omega),
      List.getD_append T [' '] '\x00' i hi]
  · rw [hwd T.length, if_pos rfl]

/-- Claim C8: a command line of plain unquoted words (no pattern
expansion, literal `glob` fallback) tokenizes to those words, parses to
the flat `Word` chain, and renders back to the words joined by single
spaces — the original command text with separators normalized. -/
theorem claim_C8 (ws : List (List Char)) (ks : List Nat) (hws : ws ≠ [])
    (hw : ∀ w ∈ ws, w ≠ [] ∧ ∀ c ∈ w, Ordinary c)
    (hks : ∀ k ∈ ks, 1 ≤ k) :
    TOK_tokenize_input (textOf ws ks) = .ok (ws.map Token.word) ∧
    Parse globLiteral (ws.map Token.word) = .ok (chainOf ws) ∧
    (AST_pipeline2str (chainOf ws) ((sepSpace ws).length + 2)).1 =
      ((sepSpace ws).length : Int) ∧
    bufList (AST_pipeline2str (chainOf ws) ((sepSpace ws).length + 2)).2
      (sepSpace ws).length = sepSpace ws ∧
    (AST_pipeline2str (chainOf ws) ((sepSpace ws).length + 2)).2.data
      (sepSpace ws).length = '\x00' ∧
    (AST_pipeline2str (chainOf ws) ((sepSpace ws).length + 2)).2.oobW = [] ∧
    (AST_pipeline2str (chainOf ws) ((sepSpace ws).length + 2)).2.oobR = [] := by
  have hwsp : ∀ w ∈ ws, w ≠ [] ∧ ' ' ∉ w := by
    intro w hmem
    obtain ⟨hne, hord⟩ := hw w hmem
    refine ⟨hne, fun hsp => ?_⟩
    have := (hord ' ' hsp).2.2.2.2.2
    simp [isspaceC] at this
  have hTne : sepSpace ws ≠ [] := sepSpace_ne_nil ws hws (fun w h => (hwsp w h).1)
  have hTlen : 1 ≤ (sepSpace ws).length := List.length_pos.mpr hTne
  have hrt : renderText (chainOf ws) = sepSpace ws ++ [' '] :=
    renderText_chainOf ws hws
  have hlast : (sepSpace ws).getD ((sepSpace ws).length - 1) '\x00' ≠ ' ' :=
    sepSpace_last ws hws hwsp
  obtain ⟨h1, h2, h3, h4, h5⟩ := AST_sprint_ok (chainOf ws) 0
    ⟨(sepSpace ws).length + 2, fun _ => '\x00', [], []⟩
    (by rw [hrt]; simp [List.length_append])
  obtain ⟨hp1, hp2, hp3, hp4, hp5⟩ := pipeline2str_of_sprint (chainOf ws)
    (sepSpace ws) ((sepSpace ws).length + 2) rfl hTlen hlast
    (by rw [h1, hrt]; simp [List.length_append])
    h2 h3 h4
    (by
      intro i hi
      rw [h5 i, if_pos (by rw [hrt]; simp only [List.length_append,
        List.length_cons, List.length_nil]; omega), hrt]
      simp)
  refine ⟨tokenize_textOf ws ks hws hw hks, ?_, hp1, ?_, hp3, hp4, hp5⟩
  · have := ParseLoop_words ws [] 0 0
    simpa [Parse, initPState, chainOf] using this
  · apply List.ext_getElem (by simp [bufList])
    intro i hi1 hi2
    simp only [bufList, List.getElem_map, List.getElem_range]
    rw [hp2 i (by simpa [bufList] using hi1), List.getD_eq_getElem _ _ hi2]

/-- Witness for C8 at the concrete command line `ls  -l` (two separating
spaces): it tokenizes to the two words, parses to the two-word chain, and
renders back as `ls -l` with a NUL terminator and no out-of-bounds
access. -/
theorem claim_C8_witness :
    TOK_tokenize_input (textOf [strL "ls", strL "-l"] [2]) =
      .ok ([strL "ls", strL "-l"].map Token.word) ∧
    Parse globLiteral ([strL "ls", strL "-l"].map Token.word) =
      .ok (chainOf [strL "ls", strL "-l"]) ∧
    (AST_pipeline2str (chainOf [strL "ls", strL "-l"])
      ((sepSpace [strL "ls", strL "-l"]).length + 2)).1 =
      ((sepSpace [strL "ls", strL "-l"]).length : Int) ∧
    bufList (AST_pipeline2str (chainOf [strL "ls", strL "-l"])
      ((sepSpace [strL "ls", strL "-l"]).length + 2)).2
      (sepSpace [strL "ls", strL "-l"]).length = sepSpace [strL "ls", strL "-l"] ∧
    (AST_pipeline2str (chainOf [strL "ls", strL "-l"])
      ((sepSpace [strL "ls", strL "-l"]).length + 2)).2.data
      (sepSpace [strL "ls", strL "-l"]).length = '\x00' ∧
    (AST_pipeline2str (chainOf [strL "ls", strL "-l"])
      ((sepSpace [strL "ls", strL "-l"]).length + 2)).2.oobW = [] ∧
    (AST_pipeline2str (chainOf [strL "ls", strL "-l"])
      ((sepSpace [strL "ls", strL "-l"]).length + 2)).2.oobR = [] :=
  claim_C8 [strL "ls", strL "-l"] [2] (by decide) (by decide) (by decide)

end Plaidsh
